import Mathlib

/-!
# BoxMoverAI — verification of spec claims against a shallow embedding

This file embeds the data model and the operations of the BoxMoverAI
repository (a SHRDLU-style block-world planner written in TypeScript) in
Lean 4 and settles a list of claims about it.

Conventions of the embedding:
* TypeScript objects become Lean structures; `null`/`undefined` fields become
  `Option`s.
* JavaScript numbers are modelled by `Int`/`Nat` where the code only ever
  produces integers, and by `Rat` (with `WithTop Rat` standing for the value
  `Infinity` produced by `Math.min` of an empty list) where fractional values
  occur (the planner's `0.5 * h` heuristics).
* World objects are referred to by their identifier strings, as the code's
  dictionaries do; the pseudo-object `floor` is the identifier `"floor"`,
  which is absent from the object map (`world.objects["floor"]` is
  `undefined` in the source, i.e. `none` here).
* Fallible code returns `Option`/`Except`.
-/

namespace BoxMover

/-- `Size` from `core/Types.ts` (`"small" | "large"`); a `null` size is
`Option.none` at use sites. -/
inductive Size where
  | small
  | large
deriving DecidableEq, Repr

/-- `Color` from `core/Types.ts`. -/
inductive Color where
  | red
  | black
  | blue
  | green
  | yellow
  | white
deriving DecidableEq, Repr

/-- `Form` from `core/Types.ts`. -/
inductive Form where
  | anyform
  | brick
  | plank
  | ball
  | pyramid
  | box
  | table
  | floor
deriving DecidableEq, Repr

/-- `SimpleObject` from `core/Types.ts`: a form, an optional size and an
optional color. -/
structure SimpleObject where
  form : Form
  size : Option Size
  color : Option Color
deriving DecidableEq, Repr

/-- The relations of `core/Types.ts`. -/
inductive Relation where
  | leftof
  | rightof
  | inside
  | ontop
  | under
  | beside
  | above
  | holding
  | atAnyLocation
deriving DecidableEq, Repr

/-- A literal of an interpretation (`core/Types.ts`): a relation together
with its argument identifiers.  The `polarity` field of the source is
always `true` in the interpreter's output and is omitted. -/
structure Literal where
  relation : Relation
  args : List String
deriving DecidableEq, Repr

/-- A conjunction of literals (`core/Types.ts`). -/
structure Conjunction where
  literals : List Literal
deriving DecidableEq, Repr

/-- A DNF formula: a disjunction of conjunctions (`core/Types.ts`). -/
structure DNFFormula where
  conjuncts : List Conjunction
deriving DecidableEq, Repr

/-!
## Feasibility rules: `canPlace` (`planner/PlannerLowLevel.ts`, lines 140-183)

In the source, `canPlace(objectA, objectB)` receives entries of
`world.objects`; the floor is represented by `undefined` (the floor has no
entry in the object map).  We model `undefined` as `none`.
-/

/-- `canPlace` from `planner/PlannerLowLevel.ts` (lines 140-183), translated
clause by clause.  `none` stands for the `undefined` obtained by looking up
the floor in the object map. -/
def canPlace (objectA objectB : Option SimpleObject) : Bool :=
  match objectA with
  | none => false            -- we cannot move the floor
  | some a =>
    match objectB with
    | none => true           -- can place everything on floor
    | some b =>
      if b.form = .ball then false        -- cannot drop anything on a ball
      else if b.form = .box then
        -- inside box
        if a.size = some .large ∧ b.size = some .small then false
        else if (a.form = .pyramid ∨ a.form = .plank ∨ a.form = .box)
                ∧ (b.size = some .small ∨ a.size = some .large) then false
        else true
      else
        -- on object
        if a.size = some .large ∧ b.size = some .small then false
        else if a.form = .ball then false
        else if a.form = .box ∧ a.size = some .small
                ∧ ((b.form = .brick ∨ b.form = .pyramid) ∧ b.size = some .small) then false
        else if a.form = .box ∧ a.size = some .large ∧ b.form = .pyramid then false
        else true

/-- The feasibility predicate exactly as the claim words it: a priority list
of cases — false when `a` is the floor; true when `b` is the floor; false
when `b` is a ball; for `b` a box, false iff `a` is large while `b` is
small, or `a` is a pyramid, plank or box that is large or whose box `b` is
small; for any other `b`, false iff `a` is large while `b` is small, or `a`
is a ball, or `a` is a small box and `b` is a small brick or small pyramid,
or `a` is a large box and `b` is a pyramid; true otherwise. -/
def canPlaceClaim (objectA objectB : Option SimpleObject) : Bool :=
  match objectA with
  | none => false
  | some a =>
    match objectB with
    | none => true
    | some b =>
      if b.form = .ball then false
      else if b.form = .box then
        ¬ ((a.size = some .large ∧ b.size = some .small)
            ∨ ((a.form = .pyramid ∨ a.form = .plank ∨ a.form = .box)
                ∧ (a.size = some .large ∨ b.size = some .small)))
      else
        ¬ ((a.size = some .large ∧ b.size = some .small)
            ∨ a.form = .ball
            ∨ (a.form = .box ∧ a.size = some .small
                ∧ ((b.form = .brick ∧ b.size = some .small)
                    ∨ (b.form = .pyramid ∧ b.size = some .small)))
            ∨ (a.form = .box ∧ a.size = some .large ∧ b.form = .pyramid))

/-- C1: The feasibility predicate `canPlace(a, b)` returns: false when `a`
is the floor; true for every (non-floor) `a` when `b` is the floor; false
whenever `b` is a ball; for `b` a box, false iff `a` is large while `b` is
small, or `a` is a pyramid, plank or box that is large or whose box `b` is
small; for `b` a non-box object, false iff `a` is large while `b` is small,
or `a` is a ball, or `a` is a small box and `b` is a small brick or small
pyramid, or `a` is a large box and `b` is a pyramid; true otherwise. -/
theorem C1_canPlace_matches_claim (a b : Option SimpleObject) :
    canPlace a b = canPlaceClaim a b := by
  cases a with
  | none => rfl
  | some oa =>
    cases b with
    | none => rfl
    | some ob =>
      rcases oa with ⟨fa, sa, ca⟩
      rcases ob with ⟨fb, sb, cb⟩
      rcases fa <;> rcases fb <;>
        rcases sa with _ | sa <;> (try rcases sa) <;>
        rcases sb with _ | sb <;> (try rcases sb) <;> rfl

/-!
## The world model

`WorldState` (`world/World.ts`): stacks of object identifiers
(bottom-first), an optional held identifier, the arm column, and a mapping
from identifier to `SimpleObject`.  The mapping is modelled as an
association list; `"floor"` has no entry (looking it up in the source
yields `undefined`).
-/

/-- `WorldState` from `world/World.ts`. -/
structure World where
  stacks' : List (List String)   -- `stacks` is reserved by Mathlib; the source field is `stacks`
  holding : Option String
  arm : Nat
  objects : List (String × SimpleObject)
deriving DecidableEq, Repr

/-- Dictionary access `world.objects[name]`; `none` models `undefined`. -/
def lookupObj (w : World) (name : String) : Option SimpleObject :=
  (w.objects.find? (fun p => p.1 == name)).map Prod.snd

/-- The singleton `Interpreter.floor` (`new SimpleObject("floor", null, null)`). -/
def floorObject : SimpleObject := ⟨.floor, none, none⟩

/-- `Interpreter.getObject` (`unnamed/part_006`, lines 603-608): the name
`"floor"` resolves to the floor singleton, all other names are looked up in
the world's object map. -/
def getObjectJS (w : World) (name : String) : Option SimpleObject :=
  if name = "floor" then some floorObject else lookupObj w name

/-!
## Literal validity (`Interpreter.isLiteralValid`, `unnamed/part_006`, lines 419-495)

The per-relation rule bodies are split into named functions so that they
can be compared with `canPlace`; each is a clause-by-clause translation of
the corresponding `case` of the source's `switch`.  `objectB !==
Interpreter.floor` in the source is reference equality with the floor
singleton, which holds exactly when the second argument name is `"floor"`;
the boolean `bFloor` passes that fact in.
-/

/-- The `case "inside"` body of `isLiteralValid`. -/
def insideRule (a b : SimpleObject) : Bool :=
  if b.form ≠ .box then false
  else if a.size = some .large ∧ b.size = some .small then false
  else if (a.form = .pyramid ∨ a.form = .plank ∨ a.form = .box)
          ∧ (b.size = some .small ∨ a.size = some .large) then false
  else true

/-- The `case "ontop"` body of `isLiteralValid`; `bFloor` says whether the
second argument is the floor singleton. -/
def ontopRule (a b : SimpleObject) (bFloor : Bool) : Bool :=
  if b.form = .box ∨ b.form = .ball then false
  else if a.form = .ball ∧ ¬ bFloor then false
  else if a.size = some .large ∧ b.size = some .small then false
  else if a.form = .box ∧ a.size = some .small
          ∧ ((b.form = .brick ∨ b.form = .pyramid) ∧ b.size = some .small) then false
  else if a.form = .box ∧ a.size = some .large ∧ b.form = .pyramid then false
  else true

/-- The `case "under"` body of `isLiteralValid`. -/
def underRule (a b : SimpleObject) : Bool :=
  if a.form = .ball then false
  else if a.size = some .small ∧ b.size = some .large then false
  else true

/-- The `case "above"` body of `isLiteralValid`. -/
def aboveRule (b : SimpleObject) : Bool :=
  if b.form = .ball then false else true

/-- `Interpreter.isLiteralValid` (`unnamed/part_006`, lines 419-495).
Unknown argument names would make the source crash on a property access of
`undefined`; literal arguments always name world objects, and the
`.getD` default is never reached under that precondition. -/
def isLiteralValid (lit : Literal) (w : World) : Bool :=
  -- cannot manipulate the floor
  if lit.args.headD "" = "floor" then false
  -- check holding and at-any-location separately
  else if lit.relation = .holding ∨ lit.relation = .atAnyLocation then true
  else
    match lit.args with
    | [a0, a1] =>
      let objectA := (getObjectJS w a0).getD ⟨.anyform, none, none⟩
      let objectB := (getObjectJS w a1).getD ⟨.anyform, none, none⟩
      match lit.relation with
      | .leftof => true
      | .rightof => true
      | .inside => insideRule objectA objectB
      | .ontop => ontopRule objectA objectB (a1 = "floor")
      | .under => underRule objectA objectB
      | .beside => true
      | .above => aboveRule objectB
      | _ => true    -- unreachable: holding / at-any-location returned above
    | _ => false     -- all other relations take two arguments

/-- On box targets the `inside` validity rule is exactly `canPlace`. -/
theorem insideRule_eq_canPlace (a b : SimpleObject) :
    insideRule a b = ((b.form == .box) && canPlace (some a) (some b)) := by
  rcases a with ⟨fa, sa, ca⟩
  rcases b with ⟨fb, sb, cb⟩
  rcases fa <;> rcases fb <;>
    rcases sa with _ | sa <;> (try rcases sa) <;>
    rcases sb with _ | sb <;> (try rcases sb) <;> rfl

/-- On non-floor targets the `ontop` validity rule is exactly `canPlace`
restricted to non-box targets. -/
theorem ontopRule_eq_canPlace (a b : SimpleObject) :
    ontopRule a b false = ((b.form != .box) && canPlace (some a) (some b)) := by
  rcases a with ⟨fa, sa, ca⟩
  rcases b with ⟨fb, sb, cb⟩
  rcases fa <;> rcases fb <;>
    rcases sa with _ | sa <;> (try rcases sa) <;>
    rcases sb with _ | sb <;> (try rcases sb) <;> rfl

theorem aboveRule_eq (b : SimpleObject) : aboveRule b = !(b.form == .ball) := by
  rcases b with ⟨fb, sb, cb⟩
  rcases fb <;> rfl

theorem underRule_eq (a b : SimpleObject) :
    underRule a b
      = !((a.form == .ball) || (a.size == some .small && b.size == some .large)) := by
  rcases a with ⟨fa, sa, ca⟩
  rcases b with ⟨fb, sb, cb⟩
  rcases fa <;>
    rcases sa with _ | sa <;> (try rcases sa) <;>
    rcases sb with _ | sb <;> (try rcases sb) <;> rfl

/-- C2 (amended): for distinct non-floor world objects `a` (named `na`) and
`b` (named `nb`), the interpreter's validity decision agrees with the
drop-legality predicate `canPlace` for the two immediate-support relations:
`inside(a,b)` is valid iff `b` is a box and `canPlace a b`, and
`ontop(a,b)` is valid iff `b` is not a box and `canPlace a b`.  For
`above` the validity check only requires that `b` is not a ball, and for
`under` only that `a` is not a ball and not (`a` small while `b` large);
neither of those two is the restriction of `canPlace`. -/
theorem C2_validity_filter_vs_canPlace (w : World) (na nb : String)
    (a b : SimpleObject)
    (hna : na ≠ "floor") (hnb : nb ≠ "floor") (hne : na ≠ nb)
    (ha : lookupObj w na = some a) (hb : lookupObj w nb = some b) :
    isLiteralValid ⟨.inside, [na, nb]⟩ w
        = ((b.form == .box) && canPlace (some a) (some b))
    ∧ isLiteralValid ⟨.ontop, [na, nb]⟩ w
        = ((b.form != .box) && canPlace (some a) (some b))
    ∧ isLiteralValid ⟨.above, [na, nb]⟩ w = !(b.form == .ball)
    ∧ isLiteralValid ⟨.under, [na, nb]⟩ w
        = !((a.form == .ball) || (a.size == some .small && b.size == some .large)) := by
  have hga : getObjectJS w na = some a := by
    simp [getObjectJS, hna, ha]
  have hgb : getObjectJS w nb = some b := by
    simp [getObjectJS, hnb, hb]
  have hfl : decide (nb = "floor") = false := by simp [hnb]
  refine ⟨?_, ?_, ?_, ?_⟩
  · simp only [isLiteralValid, List.headD, if_neg hna, hga, hgb, Option.getD_some]
    exact insideRule_eq_canPlace a b
  · simp only [isLiteralValid, List.headD, if_neg hna, hga, hgb, Option.getD_some, hfl]
    exact ontopRule_eq_canPlace a b
  · simp only [isLiteralValid, List.headD, if_neg hna, hga, hgb, Option.getD_some]
    exact aboveRule_eq b
  · simp only [isLiteralValid, List.headD, if_neg hna, hga, hgb, Option.getD_some]
    exact underRule_eq a b

/-- A world with a large brick `lbr` on the floor and a small brick `sbr`
with a small ball `bal` on top, used as concrete test data. -/
def exWorld : World :=
  { stacks' := [["lbr"], ["sbr", "bal"]]
    holding := none
    arm := 0
    objects := [("lbr", ⟨.brick, some .large, none⟩),
                ("sbr", ⟨.brick, some .small, none⟩),
                ("bal", ⟨.ball, some .small, none⟩)] }

/-- Witness for C2's amended theorem at the concrete objects `lbr` (large
brick) and `sbr` (small brick) of `exWorld`. -/
theorem C2_validity_filter_vs_canPlace_witness :
    isLiteralValid ⟨.inside, ["lbr", "sbr"]⟩ exWorld
        = ((Form.brick == Form.box) && canPlace (some ⟨.brick, some .large, none⟩)
            (some ⟨.brick, some .small, none⟩))
    ∧ isLiteralValid ⟨.ontop, ["lbr", "sbr"]⟩ exWorld
        = ((Form.brick != Form.box) && canPlace (some ⟨.brick, some .large, none⟩)
            (some ⟨.brick, some .small, none⟩))
    ∧ isLiteralValid ⟨.above, ["lbr", "sbr"]⟩ exWorld = !(Form.brick == Form.ball)
    ∧ isLiteralValid ⟨.under, ["lbr", "sbr"]⟩ exWorld
        = !((Form.brick == Form.ball)
            || ((some Size.large : Option Size) == some Size.small
                && (some Size.small : Option Size) == some Size.large)) :=
  C2_validity_filter_vs_canPlace exWorld "lbr" "sbr"
    ⟨.brick, some .large, none⟩ ⟨.brick, some .small, none⟩
    (by decide) (by decide) (by decide) (by decide) (by decide)

/-- C2 counterexample: the literal-validity filter and `canPlace` do not
apply one common rule table to `above`/`under`.  For the large brick `lbr`
and the small brick `sbr`, `above(lbr, sbr)` and `under(sbr, lbr)` describe
exactly the same configurations, yet the filter accepts the former and
rejects the latter; and it accepts `above(lbr, sbr)` although
`canPlace(lbr, sbr)` is false — so the `above`/`under` decisions are not a
restriction of the `canPlace` table, refuting the claim that one set of
rules is applied to all four placement relations. -/
theorem C2_counterexample :
    isLiteralValid ⟨.above, ["lbr", "sbr"]⟩ exWorld = true
    ∧ isLiteralValid ⟨.under, ["sbr", "lbr"]⟩ exWorld = false
    ∧ canPlace (lookupObj exWorld "lbr") (lookupObj exWorld "sbr") = false := by
  refine ⟨?_, ?_, ?_⟩ <;> rfl

/-!
## Relation testers (`Interpreter.relationTesters` and `Interpreter.matchLocation`,
`unnamed/part_006`, lines 515-577)
-/

/-- JavaScript `Array.prototype.indexOf` on a stack of identifiers: the
index of the first occurrence, `-1` if absent. -/
def jsIndexOf (xs : List String) (x : String) : Int :=
  match xs with
  | [] => -1
  | y :: ys =>
    if y = x then 0
    else if jsIndexOf ys x = -1 then -1 else jsIndexOf ys x + 1

/-- `Interpreter.getStackId` (`unnamed/part_006`, lines 616-624): the index
of the first stack containing the object, `undefined` (here `none`) when no
stack does.  The source computes `stacks.filter(contains).indexOf(first
match)`, which equals the index of the first stack satisfying the
predicate. -/
def findStackIdx (stks : List (List String)) (n : String) : Option Nat :=
  match stks with
  | [] => none
  | st :: rest => if st.contains n then some 0 else (findStackIdx rest n).map (· + 1)

/-- `getStackId` on a world. -/
def getStackId (w : World) (n : String) : Option Nat :=
  findStackIdx w.stacks' n

/-- `world.stacks[i]`; out-of-range access is never performed by the
embedded code paths (`i` always comes from `getStackId`). -/
def stackAt (w : World) (i : Nat) : List String :=
  (w.stacks'.get? i).getD []

/-- The form of the object a name denotes (`objectB.form` after a
`getObject`); the default is unreachable when names resolve. -/
def formOf (w : World) (n : String) : Form :=
  ((getObjectJS w n).getD ⟨.anyform, none, none⟩).form

/-- The `leftof` tester: strict column comparison, false when either stack
id is `undefined`. -/
def leftofTester (sA sB : Option Nat) : Bool :=
  match sA, sB with
  | some i, some j => i < j
  | _, _ => false

/-- The `rightof` tester. -/
def rightofTester (sA sB : Option Nat) : Bool :=
  match sA, sB with
  | some i, some j => i > j
  | _, _ => false

/-- The `beside` tester:
`(stackA !== undefined && stackA - 1 === stackB) || (stackB !== undefined && stackA === stackB - 1)`.
Subtraction on an `undefined` operand yields `NaN`, which compares unequal
to everything, so each disjunct requires both ids defined. -/
def besideTester (sA sB : Option Nat) : Bool :=
  (match sA, sB with
   | some i, some j => (i : Int) - 1 = (j : Int)
   | _, _ => false)
  || (match sA, sB with
      | some i, some j => (i : Int) = (j : Int) - 1
      | _, _ => false)

/-- The `inside` tester: same defined stack, index of `a` minus one equals
index of `b`, and `b` is a box. -/
def insideTester (na nb : String) (sA sB : Option Nat) (w : World) : Bool :=
  match sA, sB with
  | some i, some j =>
    i = j && jsIndexOf (stackAt w i) na - 1 = jsIndexOf (stackAt w i) nb
      && formOf w nb = .box
  | _, _ => false

/-- The non-floor body of the `ontop` tester: as `inside` but with `b` not
a box. -/
def ontopPairTester (na nb : String) (sA sB : Option Nat) (w : World) : Bool :=
  match sA, sB with
  | some i, some j =>
    i = j && jsIndexOf (stackAt w i) na - 1 = jsIndexOf (stackAt w i) nb
      && formOf w nb ≠ .box
  | _, _ => false

/-- The floor body of the `ontop` tester: `a` at stack index 0 of a defined
stack. -/
def ontopFloorTester (na : String) (sA : Option Nat) (w : World) : Bool :=
  match sA with
  | some i => jsIndexOf (stackAt w i) na = 0
  | none => false

/-- The `ontop` tester: against the floor singleton, `a` at stack index 0;
otherwise as `inside` but with `b` not a box. -/
def ontopTester (na nb : String) (sA sB : Option Nat) (w : World) : Bool :=
  if nb = "floor" then ontopFloorTester na sA w
  else ontopPairTester na nb sA sB w

/-- The `under` tester: same defined stack, `a` strictly below `b`. -/
def underTester (na nb : String) (sA sB : Option Nat) (w : World) : Bool :=
  match sA, sB with
  | some i, some j =>
    i = j && jsIndexOf (stackAt w i) na < jsIndexOf (stackAt w i) nb
  | _, _ => false

/-- The `above` tester: always true against the floor; otherwise same
defined stack with `a` strictly above `b`. -/
def aboveTester (na nb : String) (sA sB : Option Nat) (w : World) : Bool :=
  if nb = "floor" then true
  else
    match sA, sB with
    | some i, some j =>
      i = j && jsIndexOf (stackAt w i) na > jsIndexOf (stackAt w i) nb
    | _, _ => false

/-- The tester dictionary `Interpreter.relationTesters` (`unnamed/part_006`,
lines 515-549), dispatched on the relation.  `sA`/`sB` are the stack ids of
the two objects (`undefined` = `none`); the objects are passed by name.
`holding` and `at any location` are handled by the caller and do not occur
in the dictionary. -/
def relationTesters (rel : Relation) (na nb : String) (sA sB : Option Nat)
    (w : World) : Bool :=
  match rel with
  | .leftof => leftofTester sA sB
  | .rightof => rightofTester sA sB
  | .beside => besideTester sA sB
  | .inside => insideTester na nb sA sB w
  | .ontop => ontopTester na nb sA sB w
  | .under => underTester na nb sA sB w
  | .above => aboveTester na nb sA sB w
  | _ => false   -- holding / at any location never reach the dictionary

/-- The relation test of `Interpreter.matchLocation` (`unnamed/part_006`,
lines 557-577): `at any location` is always true, `holding` tests that the
object is in no stack, any other relation is false when either non-floor
argument is unplaced, and otherwise dispatches to the tester dictionary. -/
def testRelation (rel : Relation) (na nb : String) (w : World) : Bool :=
  if rel = .atAnyLocation then true
  else
    let sA := getStackId w na
    if rel = .holding then sA = none
    else
      let sB := getStackId w nb
      if (sA = none ∧ na ≠ "floor") ∨ (sB = none ∧ nb ≠ "floor") then false
      else relationTesters rel na nb sA sB w

theorem jsIndexOf_neg_one_le (xs : List String) (x : String) : -1 ≤ jsIndexOf xs x := by
  induction xs with
  | nil => simp [jsIndexOf]
  | cons y ys ih =>
    simp only [jsIndexOf]
    split
    · norm_num
    · split
      · norm_num
      · omega

theorem jsIndexOf_get? {xs : List String} {x : String} {k : Nat}
    (h : jsIndexOf xs x = (k : Int)) : xs.get? k = some x := by
  induction xs generalizing k with
  | nil =>
    simp only [jsIndexOf] at h
    omega
  | cons y ys ih =>
    by_cases hy : y = x
    · simp only [jsIndexOf, if_pos hy] at h
      have : k = 0 := by omega
      subst this
      simp [hy]
    · simp only [jsIndexOf, if_neg hy] at h
      by_cases hneg : jsIndexOf ys x = -1
      · rw [if_pos hneg] at h; omega
      · rw [if_neg hneg] at h
        have hge := jsIndexOf_neg_one_le ys x
        have hk : 1 ≤ k := by omega
        obtain ⟨k', rfl⟩ : ∃ k', k = k' + 1 := ⟨k - 1, by omega⟩
        have : jsIndexOf ys x = (k' : Int) := by omega
        simpa using ih this

theorem jsIndexOf_eq_of_get? {xs : List String} (hnd : xs.Nodup) {x : String} {k : Nat}
    (h : xs.get? k = some x) : jsIndexOf xs x = (k : Int) := by
  induction xs generalizing k with
  | nil => simp at h
  | cons y ys ih =>
    rcases k with _ | k'
    · simp only [List.get?] at h
      injection h with h
      simp [jsIndexOf, h]
    · simp only [List.get?] at h
      have hx : x ∈ ys := List.get?_mem h
      have hy : y ≠ x := by
        rintro rfl
        exact (List.nodup_cons.mp hnd).1 hx
      have hr := ih (List.nodup_cons.mp hnd).2 h
      have hge : (0 : Int) ≤ k' := by positivity
      simp only [jsIndexOf, if_neg hy, hr]
      rw [if_neg (by omega)]
      push_cast
      ring

theorem findStackIdx_spec {stks : List (List String)} {n : String} {i : Nat}
    (h : findStackIdx stks n = some i) :
    ∃ st, stks.get? i = some st ∧ n ∈ st := by
  induction stks generalizing i with
  | nil => simp [findStackIdx] at h
  | cons st rest ih =>
    by_cases hc : st.contains n
    · simp only [findStackIdx, if_pos hc] at h
      injection h with h
      subst h
      exact ⟨st, rfl, by simpa using hc⟩
    · simp only [findStackIdx, if_neg hc, Option.map_eq_some'] at h
      obtain ⟨i', hi', rfl⟩ := h
      obtain ⟨st', h1, h2⟩ := ih hi'
      exact ⟨st', h1, h2⟩

theorem findStackIdx_of_mem {stks : List (List String)} {n : String} {i : Nat}
    {st : List String} (hget : stks.get? i = some st) (hmem : n ∈ st)
    (huniq : ∀ j st', stks.get? j = some st' → n ∈ st' → j = i) :
    findStackIdx stks n = some i := by
  induction stks generalizing i with
  | nil => simp at hget
  | cons s rest ih =>
    by_cases hc : s.contains n
    · have hmem0 : n ∈ s := by simp at hc; exact hc
      have h0 : (0 : Nat) = i := huniq 0 s rfl hmem0
      rw [← h0]
      simp [findStackIdx, hc, hmem0]
    · have hns : n ∉ s := by
        intro hmm
        exact hc (by simpa using hmm)
      rcases i with _ | i'
      · simp only [List.get?] at hget
        injection hget with hget
        subst hget
        exact absurd hmem hns
      · simp only [List.get?] at hget
        have huniq' : ∀ j st', rest.get? j = some st' → n ∈ st' → j = i' := by
          intro j st' hj hmj
          have := huniq (j + 1) st' (by simpa using hj) hmj
          omega
        simp [findStackIdx, hns, ih hget huniq']

/-- In a world whose stacks hold pairwise-distinct identifiers, two stacks
containing the same identifier coincide. -/
theorem stack_mem_unique {w : World} (hnd : w.stacks'.flatten.Nodup)
    {i j : Nat} {st st' : List String} {n : String}
    (hi : w.stacks'.get? i = some st) (hj : w.stacks'.get? j = some st')
    (hin : n ∈ st) (hjn : n ∈ st') : i = j := by
  by_contra hij
  have hpw := (List.nodup_flatten.mp hnd).2
  rw [List.pairwise_iff_get] at hpw
  have hi' : i < w.stacks'.length := (List.get?_eq_some.mp hi).1
  have hj' : j < w.stacks'.length := (List.get?_eq_some.mp hj).1
  have hgi : w.stacks'.get ⟨i, hi'⟩ = st := by
    have := List.get?_eq_get hi'
    rw [this] at hi; injection hi
  have hgj : w.stacks'.get ⟨j, hj'⟩ = st' := by
    have := List.get?_eq_get hj'
    rw [this] at hj; injection hj
  rcases Nat.lt_or_ge i j with h | h
  · have := hpw ⟨i, hi'⟩ ⟨j, hj'⟩ h
    rw [hgi, hgj] at this
    exact this hin hjn
  · have hlt : j < i := by omega
    have := hpw ⟨j, hj'⟩ ⟨i, hi'⟩ hlt
    rw [hgj, hgi] at this
    exact this hjn hin

/-- Each stack of a nodup-flatten world is itself duplicate free. -/
theorem stack_nodup {w : World} (hnd : w.stacks'.flatten.Nodup)
    {i : Nat} {st : List String} (hi : w.stacks'.get? i = some st) : st.Nodup :=
  (List.nodup_flatten.mp hnd).1 st (List.get?_mem hi)

theorem formOf_eq {w : World} {nb : String} {b : SimpleObject}
    (hnb : nb ≠ "floor") (hb : lookupObj w nb = some b) : formOf w nb = b.form := by
  simp [formOf, getObjectJS, hnb, hb]

/-- The same-column, immediately-above pattern computed by the `inside` and
`ontop` testers coincides with the clean statement over stacks. -/
theorem tester_imm_iff {w : World} (hnd : w.stacks'.flatten.Nodup) (na nb : String) :
    (∃ i, getStackId w na = some i ∧ getStackId w nb = some i ∧
        jsIndexOf (stackAt w i) na - 1 = jsIndexOf (stackAt w i) nb)
    ↔ (∃ i st k, w.stacks'.get? i = some st ∧ st.get? k = some nb
        ∧ st.get? (k + 1) = some na) := by
  constructor
  · rintro ⟨i, hA, hB, heq⟩
    obtain ⟨st, hst, hmemA⟩ := findStackIdx_spec hA
    obtain ⟨st2, hst2, hmemB⟩ := findStackIdx_spec hB
    rw [hst] at hst2
    injection hst2 with hst2
    subst hst2
    have hstAt : stackAt w i = st := by
      simp only [stackAt]
      rw [hst]
      rfl
    rw [hstAt] at heq
    have hndst : st.Nodup := stack_nodup hnd hst
    obtain ⟨kA, hkA⟩ := List.get?_of_mem hmemA
    obtain ⟨kB, hkB⟩ := List.get?_of_mem hmemB
    have hiA := jsIndexOf_eq_of_get? hndst hkA
    have hiB := jsIndexOf_eq_of_get? hndst hkB
    rw [hiA, hiB] at heq
    have : kA = kB + 1 := by omega
    subst this
    exact ⟨i, st, kB, hst, hkB, hkA⟩
  · rintro ⟨i, st, k, hst, hkB, hkA⟩
    have hndst : st.Nodup := stack_nodup hnd hst
    have hmemA : na ∈ st := List.get?_mem hkA
    have hmemB : nb ∈ st := List.get?_mem hkB
    have hA : getStackId w na = some i :=
      findStackIdx_of_mem hst hmemA
        (fun j st' hj hm => (stack_mem_unique hnd hj hst hm hmemA).symm ▸ rfl)
    have hB : getStackId w nb = some i :=
      findStackIdx_of_mem hst hmemB
        (fun j st' hj hm => (stack_mem_unique hnd hj hst hm hmemB).symm ▸ rfl)
    refine ⟨i, hA, hB, ?_⟩
    have hstAt : stackAt w i = st := by
      simp only [stackAt]
      rw [hst]
      rfl
    rw [hstAt, jsIndexOf_eq_of_get? hndst hkA, jsIndexOf_eq_of_get? hndst hkB]
    push_cast
    ring

theorem findStackIdx_isSome_of_mem {stks : List (List String)} {n : String} {i : Nat}
    {st : List String} (hget : stks.get? i = some st) (hmem : n ∈ st) :
    ∃ j, findStackIdx stks n = some j := by
  induction stks generalizing i with
  | nil => simp at hget
  | cons s rest ih =>
    by_cases hc : s.contains n
    · exact ⟨0, by unfold findStackIdx; rw [if_pos hc]⟩
    · rcases i with _ | i'
      · simp only [List.get?] at hget
        injection hget with hget
        subst hget
        simp at hc
        exact absurd hmem hc
      · simp only [List.get?] at hget
        obtain ⟨j, hj⟩ := ih hget
        refine ⟨j + 1, ?_⟩
        unfold findStackIdx
        rw [if_neg hc, hj]
        rfl

/-- C3: the relation test predicates.  `inside(a, b)` holds iff `a` and `b`
are in the same column with `a` exactly one cell above `b` and `b`'s form
is `box`; `ontop(a, b)` holds iff the same positional condition holds and
`b`'s form is not `box`, except that `ontop(a, floor)` holds iff `a` is at
stack index 0; and every column-dependent relation involving an object that
appears in no stack (a held object) is false. -/
theorem C3_relation_testers (w : World) (na nb : String) (b : SimpleObject)
    (hnd : w.stacks'.flatten.Nodup)
    (hna : na ≠ "floor") (hnb : nb ≠ "floor")
    (hb : lookupObj w nb = some b) :
    (testRelation .inside na nb w = true ↔
      b.form = .box ∧ ∃ i st k, w.stacks'.get? i = some st
        ∧ st.get? k = some nb ∧ st.get? (k + 1) = some na)
    ∧ (testRelation .ontop na nb w = true ↔
      b.form ≠ .box ∧ ∃ i st k, w.stacks'.get? i = some st
        ∧ st.get? k = some nb ∧ st.get? (k + 1) = some na)
    ∧ (testRelation .ontop na "floor" w = true ↔
      ∃ i st, w.stacks'.get? i = some st ∧ st.get? 0 = some na)
    ∧ (∀ rel : Relation, rel ≠ .holding → rel ≠ .atAnyLocation →
        ((getStackId w na = none → testRelation rel na nb w = false)
         ∧ (getStackId w nb = none → testRelation rel na nb w = false))) := by
  have hheld : ∀ rel : Relation, rel ≠ .holding → rel ≠ .atAnyLocation →
      ((getStackId w na = none → testRelation rel na nb w = false)
       ∧ (getStackId w nb = none → testRelation rel na nb w = false)) := by
    intro rel h1 h2
    constructor <;> intro hz <;>
      simp [testRelation, h1, h2, hz, hna, hnb]
  have hform := formOf_eq hnb hb
  have himm := tester_imm_iff hnd na nb
  have hinside : testRelation .inside na nb w = true ↔
      b.form = .box ∧ (∃ i st k, w.stacks'.get? i = some st
        ∧ st.get? k = some nb ∧ st.get? (k + 1) = some na) := by
    rcases hAo : getStackId w na with _ | i
    · apply iff_of_false
      · simp [(hheld .inside (by decide) (by decide)).1 hAo]
      · rintro ⟨-, i, st, k, hst, hkB, hkA⟩
        obtain ⟨j, hj⟩ := findStackIdx_isSome_of_mem hst (List.get?_mem hkA)
        rw [getStackId] at hAo
        rw [hAo] at hj
        cases hj
    · rcases hBo : getStackId w nb with _ | j
      · apply iff_of_false
        · simp [(hheld .inside (by decide) (by decide)).2 hBo]
        · rintro ⟨-, i', st, k, hst, hkB, hkA⟩
          obtain ⟨j', hj'⟩ := findStackIdx_isSome_of_mem hst (List.get?_mem hkB)
          rw [getStackId] at hBo
          rw [hBo] at hj'
          cases hj'
      · have hg : testRelation .inside na nb w
            = insideTester na nb (some i) (some j) w := by
          simp [testRelation, relationTesters, hAo, hBo]
        rw [hg]
        simp only [insideTester, Bool.and_eq_true, decide_eq_true_eq]
        constructor
        · rintro ⟨⟨hij, heq⟩, hbox⟩
          subst hij
          refine ⟨by rw [← hform]; exact hbox, ?_⟩
          exact himm.1 ⟨i, hAo, hBo, heq⟩
        · rintro ⟨hbox, hex⟩
          obtain ⟨i', hA', hB', heq⟩ := himm.2 hex
          rw [hAo] at hA'
          injection hA' with hA'
          subst hA'
          rw [hBo] at hB'
          injection hB' with hB'
          exact ⟨⟨hB'.symm, heq⟩, by rw [hform]; exact hbox⟩
  have hontop : testRelation .ontop na nb w = true ↔
      b.form ≠ .box ∧ (∃ i st k, w.stacks'.get? i = some st
        ∧ st.get? k = some nb ∧ st.get? (k + 1) = some na) := by
    rcases hAo : getStackId w na with _ | i
    · apply iff_of_false
      · simp [(hheld .ontop (by decide) (by decide)).1 hAo]
      · rintro ⟨-, i, st, k, hst, hkB, hkA⟩
        obtain ⟨j, hj⟩ := findStackIdx_isSome_of_mem hst (List.get?_mem hkA)
        rw [getStackId] at hAo
        rw [hAo] at hj
        cases hj
    · rcases hBo : getStackId w nb with _ | j
      · apply iff_of_false
        · simp [(hheld .ontop (by decide) (by decide)).2 hBo]
        · rintro ⟨-, i', st, k, hst, hkB, hkA⟩
          obtain ⟨j', hj'⟩ := findStackIdx_isSome_of_mem hst (List.get?_mem hkB)
          rw [getStackId] at hBo
          rw [hBo] at hj'
          cases hj'
      · have hg : testRelation .ontop na nb w
            = ontopTester na nb (some i) (some j) w := by
          simp [testRelation, relationTesters, hAo, hBo]
        rw [hg]
        simp only [ontopTester, if_neg hnb, ontopPairTester, Bool.and_eq_true,
          decide_eq_true_eq]
        constructor
        · rintro ⟨⟨hij, heq⟩, hbox⟩
          subst hij
          refine ⟨by rw [← hform]; exact hbox, ?_⟩
          exact himm.1 ⟨i, hAo, hBo, heq⟩
        · rintro ⟨hbox, hex⟩
          obtain ⟨i', hA', hB', heq⟩ := himm.2 hex
          rw [hAo] at hA'
          injection hA' with hA'
          subst hA'
          rw [hBo] at hB'
          injection hB' with hB'
          exact ⟨⟨hB'.symm, heq⟩, by rw [hform]; exact hbox⟩
  have hfloor : testRelation .ontop na "floor" w = true ↔
      ∃ i st, w.stacks'.get? i = some st ∧ st.get? 0 = some na := by
    rcases hAo : getStackId w na with _ | i
    · apply iff_of_false
      · simp [testRelation, hAo, hna]
      · rintro ⟨i, st, hst, hk⟩
        obtain ⟨j, hj⟩ := findStackIdx_isSome_of_mem hst (List.get?_mem hk)
        rw [getStackId] at hAo
        rw [hAo] at hj
        cases hj
    · have hg : testRelation .ontop na "floor" w
          = ontopTester na "floor" (some i) (getStackId w "floor") w := by
        simp [testRelation, relationTesters, hAo]
      rw [hg]
      rw [show ontopTester na "floor" (some i) (getStackId w "floor") w
            = ontopFloorTester na (some i) w from by simp [ontopTester]]
      simp only [ontopFloorTester, decide_eq_true_eq]
      constructor
      · intro heq
        obtain ⟨st, hst, hmemA⟩ := findStackIdx_spec hAo
        have hstAt : stackAt w i = st := by
          simp only [stackAt]
          rw [hst]
          rfl
        rw [hstAt] at heq
        have h0 : st.get? 0 = some na := jsIndexOf_get? (k := 0) (by exact_mod_cast heq)
        exact ⟨i, st, hst, h0⟩
      · rintro ⟨i', st, hst, hk⟩
        have hmemA : na ∈ st := List.get?_mem hk
        have hA' : getStackId w na = some i' :=
          findStackIdx_of_mem hst hmemA
            (fun j st' hj hm => (stack_mem_unique hnd hj hst hm hmemA).symm ▸ rfl)
        rw [hAo] at hA'
        injection hA' with hA'
        subst hA'
        have hstAt : stackAt w i = st := by
          simp only [stackAt]
          rw [hst]
          rfl
        rw [hstAt]
        exact_mod_cast jsIndexOf_eq_of_get? (stack_nodup hnd hst) hk
  exact ⟨hinside, hontop, hfloor, hheld⟩


/-- Witness for C3 at the concrete world `exWorld`, `a` the ball `bal`
sitting on the small brick `sbr`. -/
theorem C3_relation_testers_witness :
    exWorld.stacks'.flatten.Nodup ∧
    (testRelation .inside "bal" "sbr" exWorld = true ↔
      (SimpleObject.mk .brick (some .small) none).form = .box
        ∧ ∃ i st k, exWorld.stacks'.get? i = some st
            ∧ st.get? k = some "sbr" ∧ st.get? (k + 1) = some "bal") :=
  ⟨by decide, (C3_relation_testers exWorld "bal" "sbr" ⟨.brick, some .small, none⟩
      (by decide) (by decide) (by decide) (by decide)).1⟩

/-!
## The low-level planner state (`NodeLowLevel`, `planner/PlannerLowLevel.ts`)

A `NodeLowLevel` copies the world's stacks and tracks the held object and
arm column; `world` is the original (immutable) world state, consulted for
the object map.  The string `id` is recomputed by `updateState`; a node
fresh from `fromWorld` (or `clone`) carries the empty id, exactly as in the
source where the constructor leaves `id = ""`.
-/

/-- `NodeLowLevel` from `planner/PlannerLowLevel.ts`. -/
structure LowNode where
  id : String
  stacks' : List (List String)   -- source field `stacks`
  holding : Option String
  arm : Nat
  world : World
deriving DecidableEq, Repr

/-- The id string built at the end of `updateState`:
`for (stack of stacks) id += stack.join() + "|"` then `id += arm + "|" + holding`
(JavaScript prints `null` for a null `holding`). -/
def encodeId (stks : List (List String)) (arm : Nat) (holding : Option String) : String :=
  (stks.foldl (fun acc st => acc ++ String.intercalate "," st ++ "|") "")
    ++ Nat.repr arm ++ "|" ++ holding.getD "null"

/-- `NodeLowLevel.fromWorld`. -/
def LowNode.fromWorld (w : World) : LowNode :=
  ⟨"", w.stacks', w.holding, w.arm, w⟩

/-- Refresh the id after a successful move, as the tail of `updateState`. -/
def refreshId (n : LowNode) : LowNode :=
  { n with id := encodeId n.stacks' n.arm n.holding }

/-- `NodeLowLevel.updateState` (`planner/PlannerLowLevel.ts`, lines 72-131):
`some` of the updated node models a `true` return, `none` a `false` return.
The out-of-range column accesses marked below would crash the source; they
are unreachable because the arm always stays within the stack range.  An
unrecognised action falls through the `switch` and succeeds without
changing the state, as in the source. -/
def updateState (action : String) (n : LowNode) : Option LowNode :=
  match action with
  | "l" =>
    if n.arm = 0 then none            -- cannot move left from leftmost position
    else some (refreshId { n with arm := n.arm - 1 })
  | "r" =>
    if (n.arm : Int) = (n.stacks'.length : Int) - 1 then none
      -- cannot move right from rightmost position
    else some (refreshId { n with arm := n.arm + 1 })
  | "p" =>
    match n.holding with
    | some _ => none                  -- cannot pick up when already holding
    | none =>
      match n.stacks'.get? n.arm with
      | none => none                  -- unreachable: source would crash
      | some pickStack =>
        if pickStack.isEmpty then none    -- cannot pick up from empty stack
        else some (refreshId { n with
          stacks' := n.stacks'.set n.arm pickStack.dropLast
          holding := pickStack.getLast? })
  | "d" =>
    match n.holding with
    | none => none                    -- cannot drop without holding
    | some h =>
      match n.stacks'.get? n.arm with
      | none => none                  -- unreachable: source would crash
      | some dropStack =>
        match dropStack.getLast? with
        | none =>                     -- empty stack: can drop anything on the floor
          some (refreshId { n with
            stacks' := n.stacks'.set n.arm (dropStack ++ [h])
            holding := none })
        | some top =>
          if canPlace (lookupObj n.world h) (lookupObj n.world top) then
            some (refreshId { n with
              stacks' := n.stacks'.set n.arm (dropStack ++ [h])
              holding := none })
          else none
  | _ => some (refreshId n)

/-!
## The A* engine (`aStarSearch`, `planner/GridGraph.ts` second part, lines 158-228)

The engine is generic over the node type; costs and heuristics are
JavaScript numbers, modelled by an ordered additive monoid `C` (`Rat` for
the plain searches, `WithTop Rat` where `Infinity` can arise from
`Math.min` of an empty list).  The `Frontier` pairs the priority queue
(modelled as a list, dequeue takes the first element of minimal total
cost) with the node dictionary; `SearchNode.path` models the `previous`
chain by carrying the reconstructed path (start excluded), which is what
`reconstructPath` extracts from the chain. -/

/-- `Successor` from `planner/Graph.ts`: an edge with action label and cost. -/
structure Successor (Node C : Type) where
  action : String
  child : Node
  cost : C
deriving DecidableEq, Repr

/-- The graph interface of `planner/Graph.ts` (node comparison is equality
of the Lean values). -/
structure AGraph (Node C : Type) where
  successors : Node → List (Successor Node C)

/-- Search status of `SearchResult`. -/
inductive SearchStatus where
  | success
  | failure
  | timeout
deriving DecidableEq, Repr

/-- `SearchResult` from `planner/Graph.ts`. -/
structure SearchResult (Node C : Type) where
  status : SearchStatus
  path : List (Successor Node C)
  cost : C
  visited : Nat
deriving Repr

/-- `SearchNode`: path cost, heuristic, the represented edge, and the
reconstructed path standing for the `previous` chain. -/
structure SearchNode (Node C : Type) where
  pathCost : C
  heuristic : C
  node : Successor Node C
  path : List (Successor Node C)
deriving DecidableEq, Repr

/-- `SearchNode.totalCost`. -/
def totalCost {Node C : Type} [Add C] (r : SearchNode Node C) : C :=
  r.pathCost + r.heuristic

/-- Association-list update with overwrite (`Dictionary.setValue`). -/
def dictSet {Node S : Type} [DecidableEq Node] :
    List (Node × S) → Node → S → List (Node × S)
  | [], k, v => [(k, v)]
  | (k', v') :: rest, k, v =>
    if k' = k then (k, v) :: rest else (k', v') :: dictSet rest k v

/-- Association-list removal (`Dictionary.remove`). -/
def dictRemove {Node S : Type} [DecidableEq Node] :
    List (Node × S) → Node → List (Node × S)
  | [], _ => []
  | (k', v') :: rest, k =>
    if k' = k then rest else (k', v') :: dictRemove rest k

/-- Association-list lookup (`Dictionary.getValue`). -/
def dictGet {Node S : Type} [DecidableEq Node] (d : List (Node × S)) (k : Node) :
    Option S :=
  (d.find? (fun p => decide (p.1 = k))).map Prod.snd

/-- The `Frontier` of `aStarSearch`: priority queue plus node dictionary. -/
structure Frontier (Node C : Type) where
  queue : List (SearchNode Node C)
  dict : List (Node × SearchNode Node C)

/-- `Frontier.add`: push into the queue, overwrite in the dictionary. -/
def Frontier.add {Node C : Type} [DecidableEq Node] (fr : Frontier Node C)
    (r : SearchNode Node C) : Frontier Node C :=
  ⟨fr.queue ++ [r], dictSet fr.dict r.node.child r⟩

/-- Extract a queue element of minimal total cost (the first such element,
matching the FIFO tie-break of the spec) together with the remaining
queue. -/
def pickMin {Node C : Type} [LinearOrder C] [Add C] :
    List (SearchNode Node C) → Option (SearchNode Node C × List (SearchNode Node C))
  | [] => none
  | x :: xs =>
    match pickMin xs with
    | none => some (x, [])
    | some (m, rest) =>
      if totalCost x ≤ totalCost m then some (x, xs) else some (m, x :: rest)

/-- `Frontier.dequeue`: remove and return the minimum, dropping its
dictionary entry. -/
def Frontier.dequeue {Node C : Type} [DecidableEq Node] [LinearOrder C] [Add C]
    (fr : Frontier Node C) :
    Option (SearchNode Node C × Frontier Node C) :=
  (pickMin fr.queue).map
    (fun p => (p.1, ⟨p.2, dictRemove fr.dict p.1.node.child⟩))

/-- Add to the discovered set (a `Set.add`: no duplicates). -/
def insertNode {Node : Type} [DecidableEq Node] (d : List Node) (x : Node) :
    List Node :=
  if x ∈ d then d else d ++ [x]

/-- The unvisited successors: `successors.filter((value) => !discovered.contains(value.child))`. -/
def unvisitedOf {Node C : Type} [DecidableEq Node] (disc : List Node)
    (succs : List (Successor Node C)) : List (Successor Node C) :=
  succs.filter (fun s => !(decide (s.child ∈ disc)))

/-- The discovered-set update of one expansion. -/
def discoveredUpdate {Node C : Type} [DecidableEq Node] (disc : List Node)
    (succs : List (Successor Node C)) : List Node :=
  (unvisitedOf disc succs).foldl (fun d s => insertNode d s.child) disc

/-- One step of the improve phase: a successor already in the frontier
dictionary with a larger path cost gets a cheaper search node inserted (the
source cannot update queue entries in place, so it inserts a fresh one,
keeping the recorded heuristic). -/
def improveStep {Node C : Type} [DecidableEq Node] [LinearOrder C] [Add C]
    (currentNode : SearchNode Node C) (fr : Frontier Node C)
    (s : Successor Node C) : Frontier Node C :=
  match dictGet fr.dict s.child with
  | some sn =>
    if currentNode.pathCost + s.cost < sn.pathCost then
      fr.add ⟨currentNode.pathCost + s.cost, sn.heuristic, s, currentNode.path ++ [s]⟩
    else fr
  | none => fr

/-- The improve phase of one expansion: the first `for` loop over the
successors. -/
def improvePhase {Node C : Type} [DecidableEq Node] [LinearOrder C] [Add C]
    (currentNode : SearchNode Node C) (succs : List (Successor Node C))
    (fr : Frontier Node C) : Frontier Node C :=
  succs.foldl (improveStep currentNode) fr

/-- One step of the add phase: push an unvisited successor with its fresh
heuristic. -/
def addStep {Node C : Type} [DecidableEq Node] [LinearOrder C] [Add C]
    (currentNode : SearchNode Node C) (h : Node → C) (fr : Frontier Node C)
    (s : Successor Node C) : Frontier Node C :=
  fr.add ⟨currentNode.pathCost + s.cost, h s.child, s, currentNode.path ++ [s]⟩

/-- The add phase of one expansion: the second `for` loop, pushing every
unvisited successor. -/
def addPhase {Node C : Type} [DecidableEq Node] [LinearOrder C] [Add C]
    (currentNode : SearchNode Node C) (h : Node → C)
    (unvisited : List (Successor Node C)) (fr : Frontier Node C) : Frontier Node C :=
  unvisited.foldl (addStep currentNode h) fr

/-- The main loop of `aStarSearch`.  The fuel argument models the
wall-clock timeout: exhausting it yields the structured timeout result. -/
def aStarGo {Node C : Type} [DecidableEq Node] [LinearOrder C] [AddCommMonoid C]
    (g : AGraph Node C) (goal : Node → Bool) (h : Node → C) (failCost : C) :
    Nat → Frontier Node C → List Node → SearchResult Node C
  | 0, _, disc => ⟨.timeout, [], failCost, disc.length⟩
  | fuel + 1, fr, disc =>
    match fr.dequeue with
    | none => ⟨.failure, [], failCost, disc.length⟩
    | some (currentNode, fr1) =>
      if goal currentNode.node.child then
        ⟨.success, currentNode.path, currentNode.pathCost, disc.length⟩
      else
        let succs := g.successors currentNode.node.child
        let fr2 := improvePhase currentNode succs fr1
        let unvisited := unvisitedOf disc succs
        let fr3 := addPhase currentNode h unvisited fr2
        let disc2 := discoveredUpdate disc succs
        aStarGo g goal h failCost fuel fr3 disc2

/-- `aStarSearch` (`planner/GridGraph.ts` second part, lines 158-228): the
frontier and the discovered set are initialised with the start node, whose
search record has path cost 0, heuristic 0 and the empty pseudo-edge. -/
def aStarSearch {Node C : Type} [DecidableEq Node] [LinearOrder C] [AddCommMonoid C]
    (g : AGraph Node C) (start : Node) (goal : Node → Bool) (h : Node → C)
    (failCost : C) (fuel : Nat) : SearchResult Node C :=
  let startRecord : SearchNode Node C := ⟨0, 0, ⟨"", start, 0⟩, []⟩
  aStarGo g goal h failCost fuel ⟨[startRecord], [(start, startRecord)]⟩ [start]

/-- `GraphLowLevel.successors` (`planner/PlannerLowLevel.ts`, lines 9-27):
one unit-cost edge per legal arm primitive. -/
def graphLowLevel (C : Type) [One C] : AGraph LowNode C :=
  ⟨fun current =>
    (["l", "r", "p", "d"].filterMap (fun action =>
      (updateState action current).map (fun node => ⟨action, node, 1⟩)))⟩

/-- A two-node example graph: one unit-cost edge from `false` to `true`. -/
def exAGraph : AGraph Bool Rat :=
  ⟨fun n => if n = true then [] else [⟨"a", true, 1⟩]⟩

/-- The keep-condition of `interpretCommand`'s self-reference filter:
`(literal.args.length !== 2) || (literal.args[0] !== literal.args[1])`. -/
def keepLiteral (l : Literal) : Bool :=
  decide (l.args.length ≠ 2) || decide (l.args.getD 0 "" ≠ l.args.getD 1 "")

/-- The post-processing stage of `Interpreter.interpretCommand`
(`src/unnamed/part_006`, lines 119-137): remove self-referencing literals from
every conjunction, drop conjunctions left empty, and fail when no conjunction
remains. -/
def filterConjunction (conjunction : Conjunction) : Option Conjunction :=
  if (conjunction.literals.filter keepLiteral).length > 0 then
    some ⟨conjunction.literals.filter keepLiteral⟩
  else none

/-- `Junction` (`core/Types.ts`): whether an entity's candidates are meant
conjunctively (quantifier `all`) or disjunctively. -/
inductive Junction where
  | conjunction
  | disjunction
deriving DecidableEq, Repr

/-- The `TakeCommand` branch of `Interpreter.interpretCommandInternal`
(`src/unnamed/part_006`, lines 242-257): an `all` entity with more than one
candidate yields the empty formula; otherwise one single-literal conjunction
`holding(e)` per candidate `e`, kept only when `isLiteralValid` accepts it.
Candidates are the object names produced by `getObjectName`. -/
def takeCommandDNF (w : World) (junction : Junction) (candidates : List String) :
    DNFFormula :=
  if junction = Junction.conjunction ∧ candidates.length > 1 then ⟨[]⟩
  else ⟨candidates.filterMap (fun name =>
    if isLiteralValid ⟨.holding, [name]⟩ w then some ⟨[⟨.holding, [name]⟩]⟩
    else none)⟩

def interpretCommandFilter (result : DNFFormula) : Except String DNFFormula :=
  if (result.conjuncts.filterMap filterConjunction).length = 0 then
    Except.error "Can not interpret command"
  else Except.ok ⟨result.conjuncts.filterMap filterConjunction⟩

/-- `Array.prototype.indexOf` over any element type: the index of the first
occurrence, `-1` when absent. -/
def jsIndexOfG {A : Type} [DecidableEq A] (xs : List A) (x : A) : Int :=
  match xs with
  | [] => -1
  | y :: ys =>
    if y = x then 0
    else if jsIndexOfG ys x = -1 then -1 else jsIndexOfG ys x + 1

/-- `Math.min.apply(Math, l)`: the minimum of a number list, `Infinity`
(modelled as `⊤`) when the list is empty. -/
def jsMin (l : List Int) : WithTop Int :=
  l.foldr (fun x m => min (x : WithTop Int) m) ⊤

/-- `OnStackGoal.isFulfilled` (`src/PlannerHighLevel.ts`, lines 566-572):
the first stack containing the item exists and its index satisfies
`stackValid`. -/
def onStackIsFulfilled (item : String) (stackValid : Int → Bool)
    (sts : List (List String)) : Bool :=
  match sts.filter (fun st => jsIndexOf st item ≥ 0) with
  | [] => false
  | st :: _ => stackValid (jsIndexOfG sts st)

/-- `OnStackGoal.getHeuristic` (`src/PlannerHighLevel.ts`, lines 579-589):
0 when fulfilled; otherwise take the item's column (or the arm column when
the item is on no stack) and the minimum over the `stackValid` columns of
the signed difference `stackId - itemId`. -/
def onStackGetHeuristic (item : String) (stackValid : Int → Bool)
    (sts : List (List String)) (arm : Int) : WithTop Int :=
  if onStackIsFulfilled item stackValid sts then 0
  else
    jsMin ((((sts.map (fun st => jsIndexOfG sts st)).filter
        (fun stackId => stackValid stackId)).map
      (fun stackId => stackId -
        (match sts.filter (fun st => jsIndexOf st item ≥ 0) with
         | [] => arm
         | st :: _ => jsIndexOfG sts st))))

/-- The heuristic the specification describes for OnStack(x, pred): the
minimum over the columns satisfying `pred` of the absolute column distance
from x's column (or from the arm column when x is unplaced). -/
def specOnStackHeuristic (item : String) (stackValid : Int → Bool)
    (sts : List (List String)) (arm : Int) : WithTop Int :=
  jsMin ((((List.range sts.length).map Int.ofNat).filter
      (fun stackId => stackValid stackId)).map
    (fun stackId => |stackId -
      (match sts.filter (fun st => jsIndexOf st item ≥ 0) with
       | [] => arm
       | st :: _ => jsIndexOfG sts st)|))

/-!
## The high-level planner (`src/PlannerHighLevel.ts`, `src/unnamed/part_002`)

The high-level search walks a goal tree built from the DNF formula.  A search
node pairs a cursor into that tree with a low-level world snapshot.  Goals
whose `evaluate` is `evaluateSkip` (the root, the final node, and every
composite goal) are embedded in full; the basic goals at the ends of the
chains evaluate through a nested low-level A* search (`evaluateLowLevel`),
which the development abstracts as an arbitrary function `basicEval`, so every
theorem about the embedding holds for every behaviour of that subsystem.
-/

/-- The result record of `NodeGoal.evaluate`. -/
structure EvalResult where
  success : Bool
  cost : Rat
  path : String
  state : Option LowNode
deriving Repr

/-- `NodeGoal.evaluateSkip`: succeed at cost 1 with an empty path and no
state. -/
def evaluateSkipR : EvalResult := ⟨true, 1, "", none⟩

/-- `MoveToStackGoal.stackCheck` (`src/PlannerHighLevel.ts`, lines 404-421):
whether the stack at `stackId` is in `rel` to the first stack holding
`goal`.  Only `beside`, `leftof` and `rightof` occur in the dictionary. -/
def stackCheck (rel : Relation) (goal : String) (stackId : Int) (s : LowNode) :
    Bool :=
  match s.stacks'.filter (fun st => jsIndexOf st goal ≥ 0) with
  | [] => false
  | st :: _ =>
    match rel with
    | .beside => jsIndexOfG s.stacks' st - 1 == stackId
        || jsIndexOfG s.stacks' st + 1 == stackId
    | .leftof => jsIndexOfG s.stacks' st > stackId
    | .rightof => jsIndexOfG s.stacks' st < stackId
    | _ => false    -- unreachable: the dictionary has no other keys

/-- `SameStackGoal.isFulfilled` (`src/PlannerHighLevel.ts`, lines 708-734). -/
def sameStackFulfilled (item : String) (rel : Relation) (goal : String)
    (s : LowNode) : Bool :=
  match s.stacks'.filter (fun st => jsIndexOf st item ≥ 0) with
  | [] => false
  | stA :: _ =>
    if goal ≠ "floor" then
      match s.stacks'.filter (fun st => jsIndexOf st goal ≥ 0) with
      | [] => false
      | stB :: _ =>
        if jsIndexOfG s.stacks' stA ≠ jsIndexOfG s.stacks' stB then false
        else
          match rel with
          | .above => jsIndexOf stA item > jsIndexOf stB goal
          | .ontop => jsIndexOf stA item - 1 == jsIndexOf stB goal
          | _ => false    -- unreachable: only above and ontop are constructed
    else
      match rel with
      | .above => jsIndexOf stA item ≥ 0
      | .ontop => jsIndexOf stA item == 0
      | _ => false    -- unreachable: only above and ontop are constructed

/-- `MoveToStackGoal.isFulfilled`: the `OnStackGoal` at the end of its chain,
with the stack-check of its relation. -/
def moveToStackFulfilled (item goal : String) (rel : Relation) (s : LowNode) :
    Bool :=
  onStackIsFulfilled item (fun sid => stackCheck rel goal sid s) s.stacks'

/-- `ClearStackGoal.isFulfilled` (`src/PlannerHighLevel.ts`, lines 787-796).
A JavaScript `indexOf(undefined)` is -1, so an undefined item yields false. -/
def clearStackFulfilled (item : Option String) (s : LowNode) : Bool :=
  match item with
  | none => false
  | some it =>
    if it = "floor" then s.world.stacks'.any (fun st => st.length = 0)
    else
      match s.stacks'.filter (fun st => jsIndexOf st it ≥ 0) with
      | [] => false
      | st :: _ => jsIndexOf st it == (st.length : Int) - 1

/-- `ClearOnStackGoal.isClear` (`src/PlannerHighLevel.ts`, lines 902-910). -/
def isClearStack (item : String) (sid : Int) (s : LowNode) : Bool :=
  match s.stacks'.get? sid.toNat with
  | none => false    -- unreachable: sid comes from indexOf over the stacks
  | some dropStack =>
    if dropStack.length = 0 then true
    else canPlace (getObjectJS s.world item)
      (getObjectJS s.world (dropStack.getD (dropStack.length - 1) ""))

/-- `ClearOnStackGoal.isFulfilled` (`src/PlannerHighLevel.ts`, lines 857-861). -/
def clearOnStackFulfilled (item : String) (stackValid : Int → Bool)
    (s : LowNode) : Bool :=
  ((s.stacks'.map (fun st => jsIndexOfG s.stacks' st)).filter
    (fun sid => stackValid sid && isClearStack item sid s)).length > 0

/-- `WidenStackGoal.isFulfilled` (`src/PlannerHighLevel.ts`, lines 618-633). -/
def widenStackFulfilled (item goal : String) (s : LowNode) : Bool :=
  if goal = "floor" then true
  else
    match s.stacks'.filter (fun st => jsIndexOf st goal ≥ 0) with
    | [] => false
    | goalStack :: _ =>
      if jsIndexOf goalStack item ≥ 0 then true
      else canPlace (getObjectJS s.world item)
        (getObjectJS s.world (goalStack.getD (goalStack.length - 1) ""))

/-- The kinds of goal-tree nodes, with the data their constructors store.
`pickUp` and its chain keep the item optional: JavaScript passes
`literal.args[0]`, which is `undefined` for a malformed holding literal. -/
inductive GoalKind where
  | dnfRoot
  | finalNode
  | conjGoal (c : Conjunction)
  | pickUp (item : Option String)
  | moveBidirectional (item goal : String) (relA relB : Relation)
  | moveToStack (item goal : String) (rel : Relation)
  | moveOnTop (item goal : String)
  | moveAbove (item goal : String)
  | clearStack (item : Option String)
  | clearOnStack (item goal : String) (rel : Relation)
  | widenStack (item goal : String)
  | holdingG (item : Option String)
  | onStack (item goal : String) (rel : Relation)
  | sameStackK (item : String) (rel : Relation) (goal : String)
deriving DecidableEq, Repr

/-- `ConjunctionGoal.create` (`src/PlannerHighLevel.ts`, lines 297-326):
the goal built for one literal; `none` when the source throws (wrong number
of arguments, or an unknown relation).  `under` reverses the arguments and
falls through to `above`. -/
def litTopKind (l : Literal) : Option GoalKind :=
  if l.relation = .holding then some (.pickUp (l.args.get? 0))
  else if l.args.length ≠ 2 then none
  else
    match l.relation with
    | .leftof => some (.moveBidirectional (l.args.getD 0 "") (l.args.getD 1 "") .leftof .rightof)
    | .rightof => some (.moveBidirectional (l.args.getD 0 "") (l.args.getD 1 "") .rightof .leftof)
    | .beside => some (.moveBidirectional (l.args.getD 0 "") (l.args.getD 1 "") .beside .beside)
    | .inside => some (.moveOnTop (l.args.getD 0 "") (l.args.getD 1 ""))
    | .ontop => some (.moveOnTop (l.args.getD 0 "") (l.args.getD 1 ""))
    | .under => some (.moveAbove (l.args.getD 1 "") (l.args.getD 0 ""))
    | .above => some (.moveAbove (l.args.getD 0 "") (l.args.getD 1 ""))
    | _ => none    -- "at any location": `Unknown relation` is thrown

/-- Fulfilment of the goal built for one literal (the composites override
`isFulfilled` with their chain-end leaf's test). -/
def litTopFulfilled (s : LowNode) (l : Literal) : Bool :=
  match litTopKind l with
  | some (.pickUp it) => s.holding == it
  | some (.moveBidirectional a0 a1 rA rB) =>
      moveToStackFulfilled a0 a1 rA s || moveToStackFulfilled a1 a0 rB s
  | some (.moveOnTop a b) => sameStackFulfilled a .ontop b s
  | some (.moveAbove a b) => sameStackFulfilled a .above b s
  | _ => false    -- unreachable: tree construction fails first

/-- `ConjunctionGoal.isFulfilled = allFulfilled`: every literal goal holds. -/
def conjGoalFulfilled (s : LowNode) (c : Conjunction) : Bool :=
  c.literals.all (litTopFulfilled s)

/-- `DnfGoal.isFulfilled = someFulfilled`: some conjunction goal holds. -/
def dnfGoalFulfilled (s : LowNode) (dnf : DNFFormula) : Bool :=
  dnf.conjuncts.any (conjGoalFulfilled s)

/-- Addresses of goal-tree nodes reachable by the high-level search.
`chain` addresses the k-th element of the evaluation chain the composite at
(ci, li) builds with `appendChild`; `side` distinguishes the two
`MoveToStackGoal` children of a bidirectional goal. -/
inductive GAddr where
  | root
  | final
  | conj (ci : Nat)
  | lit (ci li : Nat)
  | bidir (ci li : Nat) (second : Bool)
  | chain (ci li : Nat) (side : Option Bool) (k : Nat)
deriving DecidableEq, Repr

/-- Depth of an address in the tree: each node's `heuristicParent` is
strictly shallower. -/
def gaDepth : GAddr → Nat
  | .root => 0
  | .final => 1
  | .conj _ => 1
  | .lit _ _ => 2
  | .bidir _ _ _ => 3
  | .chain _ _ none k => 3 + k
  | .chain _ _ (some _) k => 4 + k

/-- The `heuristicParent` reference of each goal, as an address. -/
def heuristicParentAddr : GAddr → Option GAddr
  | .root => none
  | .final => some .root
  | .conj _ => some .root
  | .lit ci _ => some (.conj ci)
  | .bidir ci li _ => some (.lit ci li)
  | .chain ci li side 0 =>
      some (match side with | none => .lit ci li | some b => .bidir ci li b)
  | .chain ci li side (k + 1) => some (.chain ci li side k)

/-- The goal at the literal address (ci, li). -/
def litKindAt (dnf : DNFFormula) (ci li : Nat) : Option GoalKind :=
  (dnf.conjuncts.get? ci).bind (fun c => (c.literals.get? li).bind litTopKind)

/-- The `MoveToStackGoal` child of a bidirectional goal: the second child
swaps item and goal and uses the reverse relation. -/
def bidirKindAt (dnf : DNFFormula) (ci li : Nat) (second : Bool) :
    Option GoalKind :=
  (litKindAt dnf ci li).bind (fun k =>
    match k with
    | .moveBidirectional a0 a1 rA rB =>
        some (if second then .moveToStack a1 a0 rB else .moveToStack a0 a1 rA)
    | _ => none)

/-- The evaluation chain each composite builds with `appendChild`, flattened:
a `PickUpGoal` inserted into a chain contributes itself followed by its own
chain (`ClearStackGoal`, `HoldingGoal`), and the final basic goal is pushed
at the walk's end. -/
def chainKinds : GoalKind → List GoalKind
  | .pickUp it => [.clearStack it, .holdingG it]
  | .moveToStack it gl rel =>
      [.clearOnStack it gl rel, .pickUp (some it), .clearStack (some it),
        .holdingG (some it), .onStack it gl rel]
  | .moveOnTop it gl =>
      [.clearStack (some gl), .pickUp (some it), .clearStack (some it),
        .holdingG (some it), .sameStackK it .ontop gl]
  | .moveAbove it gl =>
      [.widenStack it gl, .pickUp (some it), .clearStack (some it),
        .holdingG (some it), .sameStackK it .above gl]
  | _ => []

/-- The goal stored at an address. -/
def kindAt (dnf : DNFFormula) : GAddr → Option GoalKind
  | .root => some .dnfRoot
  | .final => some .finalNode
  | .conj ci => (dnf.conjuncts.get? ci).map .conjGoal
  | .lit ci li => litKindAt dnf ci li
  | .bidir ci li b => bidirKindAt dnf ci li b
  | .chain ci li side k =>
      (match side with
       | none => litKindAt dnf ci li
       | some b => bidirKindAt dnf ci li b).bind
        (fun top => (chainKinds top).get? k)

/-- `isFulfilled` of each goal kind. -/
def isFulfilledK (dnf : DNFFormula) (s : LowNode) : GoalKind → Bool
  | .dnfRoot => dnfGoalFulfilled s dnf
  | .finalNode => true
  | .conjGoal c => conjGoalFulfilled s c
  | .pickUp it => s.holding == it
  | .moveBidirectional a0 a1 rA rB =>
      moveToStackFulfilled a0 a1 rA s || moveToStackFulfilled a1 a0 rB s
  | .moveToStack it gl rel => moveToStackFulfilled it gl rel s
  | .moveOnTop it gl => sameStackFulfilled it .ontop gl s
  | .moveAbove it gl => sameStackFulfilled it .above gl s
  | .clearStack it => clearStackFulfilled it s
  | .clearOnStack it gl rel =>
      clearOnStackFulfilled it (fun sid => stackCheck rel gl sid s) s
  | .widenStack it gl => widenStackFulfilled it gl s
  | .holdingG it => s.holding == it
  | .onStack it gl rel => moveToStackFulfilled it gl rel s
  | .sameStackK it rel gl => sameStackFulfilled it rel gl s

/-- `isFulfilled` of the goal at an address. -/
def isFulfilledA (dnf : DNFFormula) (s : LowNode) (a : GAddr) : Bool :=
  (kindAt dnf a).elim false (isFulfilledK dnf s)

/-- The `precondition` flag: false only for `DnfGoal` (set in its
constructor) and `ConjunctionGoal` (a `CompositeGoal` that does not re-set
it); every other goal sets or inherits true. -/
def preconditionK : GoalKind → Bool
  | .dnfRoot => false
  | .conjGoal _ => false
  | _ => true

/-- The `children` list of each goal, as addresses. -/
def childrenAddrs (dnf : DNFFormula) : GAddr → List GAddr
  | .root => (List.range dnf.conjuncts.length).map .conj
  | .final => []
  | .conj ci =>
      match dnf.conjuncts.get? ci with
      | none => []
      | some c => (List.range c.literals.length).map (.lit ci)
  | .lit ci li =>
      match litKindAt dnf ci li with
      | some (.moveBidirectional _ _ _ _) => [.bidir ci li false, .bidir ci li true]
      | some k => if (chainKinds k).length = 0 then [] else [.chain ci li none 0]
      | none => []
  | .bidir ci li b =>
      match bidirKindAt dnf ci li b with
      | some k => if (chainKinds k).length = 0 then [] else [.chain ci li (some b) 0]
      | none => []
  | .chain ci li side k =>
      match (match side with
             | none => litKindAt dnf ci li
             | some b => bidirKindAt dnf ci li b) with
      | some top =>
          if k + 1 < (chainKinds top).length then [.chain ci li side (k + 1)] else []
      | none => []

theorem gaDepth_parent_lt {a p : GAddr} (hp : heuristicParentAddr a = some p) :
    gaDepth p < gaDepth a := by
  cases a with
  | root => cases hp
  | final => cases hp; decide
  | conj ci => cases hp; simp [gaDepth]
  | lit ci li => cases hp; simp [gaDepth]
  | bidir ci li b => cases hp; simp [gaDepth]
  | chain ci li side k =>
    cases k with
    | zero =>
      cases side <;> (injection hp with hp; subst hp; simp [gaDepth])
    | succ k' =>
      injection hp with hp
      subst hp
      cases side <;> simp [gaDepth]

/-- `NodeGoal.getChildren` / `DnfGoal.getChildren`
(`src/PlannerHighLevel.ts`, lines 89-105 and 264-269): preconditions forward
to their children (or recurse up when asked to, or when childless); the
root returns the final node once fulfilled and otherwise its unfulfilled
conjunction goals; a conjunction forwards to its unfulfilled children or
recurses up. -/
def getChildrenA (dnf : DNFFormula) (s : LowNode) : GAddr → Bool → List GAddr
  | a, up =>
    match kindAt dnf a with
    | none => []
    | some k =>
      if preconditionK k then
        match hp : heuristicParentAddr a with
        | none => []
        | some p =>
          if up then getChildrenA dnf s p true
          else if (childrenAddrs dnf a).length = 0 then getChildrenA dnf s p true
          else childrenAddrs dnf a
      else
        match k with
        | .dnfRoot =>
          if dnfGoalFulfilled s dnf then [.final]
          else (childrenAddrs dnf a).filter (fun ca => !isFulfilledA dnf s ca)
        | _ =>
          match hp : heuristicParentAddr a with
          | none => []
          | some p =>
            if isFulfilledK dnf s k then getChildrenA dnf s p true
            else
              if ((childrenAddrs dnf a).filter (fun ca => !isFulfilledA dnf s ca)).length = 0
              then getChildrenA dnf s p true
              else (childrenAddrs dnf a).filter (fun ca => !isFulfilledA dnf s ca)
termination_by a up => gaDepth a
decreasing_by
  all_goals exact gaDepth_parent_lt (by assumption)

/-- Which goals' `evaluate` is `evaluateSkip`: the root, the final node and
every composite (including the bidirectional dispatcher); the basic goals
evaluate through the nested low-level search. -/
def evalKindSkips : GoalKind → Bool
  | .dnfRoot => true
  | .finalNode => true
  | .conjGoal _ => true
  | .pickUp _ => true
  | .moveBidirectional _ _ _ _ => true
  | .moveToStack _ _ _ => true
  | .moveOnTop _ _ => true
  | .moveAbove _ _ => true
  | _ => false

/-- `NodeGoal.evaluate` at an address: skip for composites, and the
`evaluateLowLevel` subsystem (abstracted as `basicEval`) for basic goals. -/
def evaluateA (dnf : DNFFormula) (basicEval : GAddr → LowNode → EvalResult)
    (a : GAddr) (s : LowNode) : EvalResult :=
  match kindAt dnf a with
  | none => evaluateSkipR
  | some k => if evalKindSkips k then evaluateSkipR else basicEval a s

/-- `NodeHighLevel.successors` (`src/PlannerHighLevel.ts`, lines 34-48): one
edge per goal returned by `getChildren` whose evaluation succeeds, keeping
the evaluation's path, cost and state (or the current state). -/
def graphHighLevel (dnf : DNFFormula)
    (basicEval : GAddr → LowNode → EvalResult) : AGraph (GAddr × LowNode) Rat :=
  ⟨fun cur =>
    (getChildrenA dnf cur.2 cur.1 false).filterMap (fun g =>
      let r := evaluateA dnf basicEval g cur.2
      if r.success then some ⟨r.path, (g, r.state.getD cur.2), r.cost⟩ else none)⟩

/-- The goal test of the outer search: `node.goalNode instanceof FinalNode`. -/
def goalTestHL (n : GAddr × LowNode) : Bool := n.1 == GAddr.final

/-- The error `ConjunctionGoal.create` throws for a malformed literal. -/
def litBuildError (l : Literal) : Option String :=
  if l.relation = .holding then none
  else if l.args.length ≠ 2 then some "Unexpected number of arguments"
  else
    match l.relation with
    | .atAnyLocation => some "Unknown relation: at any location"
    | _ => none

/-- The first error thrown while building the goal tree, if any. -/
def firstBuildError (dnf : DNFFormula) : Option String :=
  dnf.conjuncts.findSome? (fun c => c.literals.findSome? litBuildError)

/-- The per-interpretation body of `plan` (`src/unnamed/part_002`, lines
32-50): build the high-level graph (which throws on malformed literals), run
the outer A* with the zero heuristic, flatten the `;`-joined action strings
of the returned path, and append the `Path with … moves` annotation; the
`already true` annotation would only be appended to an empty plan. -/
def planOne (dnf : DNFFormula) (w : World)
    (basicEval : GAddr → LowNode → EvalResult) (fuel : Nat) :
    Except String (List String) :=
  match firstBuildError dnf with
  | some e => Except.error e
  | none =>
    let res := aStarSearch (graphHighLevel dnf basicEval)
      (GAddr.root, LowNode.fromWorld w) goalTestHL (fun _ => 0) (-1) fuel
    let p : List String :=
      (res.path.map (fun sc => sc.action.splitOn ";")).foldl (· ++ ·) []
    let p2 := p ++ ["Path with " ++ toString res.path.length ++ " moves ("
      ++ toString res.visited ++ " visited nodes)"]
    let p3 : List String :=
      if p2.length = 0 then p2 ++ ["The interpretation is already true!"] else p2
    Except.ok p3

/-- `NodeHighLevel` (`src/unnamed/part_008`, lines 27-45): a goal cursor and
a low-level snapshot, keyed by an id drawn from the static counter. -/
structure NodeHighLevelC where
  id : Nat
  goalNode : GAddr
  nodeLowLevel : LowNode
deriving DecidableEq, Repr

/-- `NodeHighLevel.getId`: the decimal string of the id. -/
def NodeHighLevelC.getId (n : NodeHighLevelC) : String := Nat.repr n.id

/-- `String.prototype.localeCompare`: negative, zero or positive according
to the string order. -/
def localeCompare (a b : String) : Int :=
  if a < b then -1 else if b < a then 1 else 0

/-- `NodeHighLevel.compareTo`: compare the id strings only. -/
def NodeHighLevelC.compareTo (a b : NodeHighLevelC) : Int :=
  localeCompare a.getId b.getId

/-- The constructor paired with the counter update `NodeHighLevel.counter++`. -/
def mkNodeHighLevel (counter : Nat) (g : GAddr) (l : LowNode) :
    NodeHighLevelC × Nat :=
  (⟨counter, g, l⟩, counter + 1)

/-- The numeric value of a decimal digit character. -/
def digitVal (c : Char) : Nat := c.toNat - 48

/-- One step of reading a digit string from the right: value and place. -/
def decStepR (c : Char) (p : Nat × Nat) : Nat × Nat :=
  (p.1 + digitVal c * p.2, p.2 * 10)

theorem insertNode_nodup {Node : Type} [DecidableEq Node] {d : List Node} (hd : d.Nodup)
    (x : Node) : (insertNode d x).Nodup := by
  unfold insertNode
  split
  · exact hd
  · next hx => simp [List.nodup_append, hd, hx]

theorem foldl_insertNode_nodup {Node : Type} [DecidableEq Node]
    {l : List Node} {d : List Node} (hd : d.Nodup) :
    (l.foldl insertNode d).Nodup := by
  induction l generalizing d with
  | nil => exact hd
  | cons x xs ih => exact ih (insertNode_nodup hd x)

theorem discoveredUpdate_nodup {Node C : Type} [DecidableEq Node]
    {disc : List Node} (hd : disc.Nodup) (succs : List (Successor Node C)) :
    (discoveredUpdate disc succs).Nodup := by
  unfold discoveredUpdate
  induction unvisitedOf disc succs generalizing disc with
  | nil => exact hd
  | cons s rest ih => exact ih (insertNode_nodup hd s.child)

theorem updateState_id {action : String} {n m : LowNode}
    (hm : updateState action n = some m) :
    m.id = encodeId m.stacks' m.arm m.holding := by
  unfold updateState at hm
  split at hm <;>
    repeat' first
      | (injection hm with hm; subst hm; rfl)
      | cases hm
      | split at hm

theorem strFoldl_acc (l : List String) (acc : String) :
    l.foldl (fun r s => r ++ s) acc = acc ++ l.foldl (fun r s => r ++ s) "" := by
  induction l generalizing acc with
  | nil => simp only [List.foldl, String.append_empty]
  | cons x xs ih =>
    simp only [List.foldl]
    rw [ih (acc ++ x), ih ("" ++ x), String.empty_append, String.append_assoc]

theorem encFoldl_acc (l : List (List String)) (acc : String) :
    l.foldl (fun acc st => acc ++ String.intercalate "," st ++ "|") acc
      = acc ++ l.foldl (fun acc st => acc ++ String.intercalate "," st ++ "|") "" := by
  induction l generalizing acc with
  | nil => simp only [List.foldl, String.append_empty]
  | cons y ys ih =>
    simp only [List.foldl]
    rw [ih (acc ++ String.intercalate "," y ++ "|"),
      ih ("" ++ String.intercalate "," y ++ "|"), String.empty_append,
      String.append_assoc, String.append_assoc, String.append_assoc]

theorem encodeId_core (stks : List (List String)) :
    stks.foldl (fun acc st => acc ++ String.intercalate "," st ++ "|") ""
      = (stks.map (fun st => String.intercalate "," st ++ "|")).foldl
          (fun r s => r ++ s) "" := by
  induction stks with
  | nil => rfl
  | cons st rest ih =>
    simp only [List.foldl, List.map]
    rw [strFoldl_acc, encFoldl_acc, ih]
    simp [String.empty_append, String.append_assoc]

theorem encodeId_join (stks : List (List String)) (arm : Nat) (holding : Option String) :
    encodeId stks arm holding
      = String.join (stks.map (fun st => String.intercalate "," st ++ "|"))
          ++ Nat.repr arm ++ "|" ++ holding.getD "null" := by
  unfold encodeId
  rw [encodeId_core]
  rfl

/-- C4: for every low-level node, the successor set contains exactly the
legal applications of the four arm primitives `l`, `r`, `p`, `d`, each as
one edge of cost 1: `l` (`r`) is legal iff the arm is not at the leftmost
(rightmost) column, `p` iff nothing is held and the arm's stack is
non-empty, `d` iff something is held and the arm's stack is empty or
`canPlace(held, top)` holds; each successor's canonical id joins the
stacks' identifiers and appends the arm column and held identifier; and
the discovered set of the search never takes a duplicate. -/
theorem C4_low_level_successors (n : LowNode) (harm : n.arm < n.stacks'.length) :
    ((updateState "l" n).isSome ↔ n.arm ≠ 0)
    ∧ ((updateState "r" n).isSome ↔ n.arm ≠ n.stacks'.length - 1)
    ∧ ((updateState "p" n).isSome ↔ n.holding = none ∧ (n.stacks'.get? n.arm).getD [] ≠ [])
    ∧ ((updateState "d" n).isSome ↔ ∃ h, n.holding = some h ∧
        ((n.stacks'.get? n.arm).getD [] = [] ∨
          ∃ top, ((n.stacks'.get? n.arm).getD []).getLast? = some top ∧
            canPlace (lookupObj n.world h) (lookupObj n.world top) = true))
    ∧ (∀ s : Successor LowNode Rat, s ∈ (graphLowLevel Rat).successors n ↔
        (s.action ∈ (["l", "r", "p", "d"] : List String)
          ∧ updateState s.action n = some s.child ∧ s.cost = 1))
    ∧ (∀ s : Successor LowNode Rat, s ∈ (graphLowLevel Rat).successors n →
        s.child.id = String.join (s.child.stacks'.map
            (fun st => String.intercalate "," st ++ "|"))
          ++ Nat.repr s.child.arm ++ "|" ++ s.child.holding.getD "null")
    ∧ (∀ (disc : List LowNode), disc.Nodup →
        (discoveredUpdate disc ((graphLowLevel Rat).successors n)).Nodup) := by
  obtain ⟨st, hst⟩ : ∃ st, n.stacks'.get? n.arm = some st :=
    ⟨n.stacks'.get ⟨n.arm, harm⟩, List.get?_eq_get harm⟩
  have hmem : ∀ s : Successor LowNode Rat, s ∈ (graphLowLevel Rat).successors n ↔
      (s.action ∈ (["l", "r", "p", "d"] : List String)
        ∧ updateState s.action n = some s.child ∧ s.cost = 1) := by
    intro s
    simp only [graphLowLevel, List.mem_filterMap, Option.map_eq_some']
    constructor
    · rintro ⟨a, ha, m, hup, rfl⟩
      exact ⟨ha, hup, rfl⟩
    · rintro ⟨ha, hup, hc⟩
      refine ⟨s.action, ha, s.child, hup, ?_⟩
      obtain ⟨sa, sc, scost⟩ := s
      simp at hc
      simp [hc]
  refine ⟨?_, ?_, ?_, ?_, hmem, ?_, ?_⟩
  · by_cases h0 : n.arm = 0 <;> simp [updateState, h0]
  · by_cases h : (n.arm : Int) = (n.stacks'.length : Int) - 1
    · simp only [updateState, if_pos h, Option.isSome_none, Bool.false_eq_true, false_iff,
        ne_eq, not_not]
      omega
    · simp only [updateState, if_neg h, Option.isSome_some, true_iff, ne_eq]
      omega
  · rcases hh : n.holding with _ | h
    · simp only [updateState, hh, hst]
      by_cases he : st.isEmpty
      · have : st = [] := List.isEmpty_iff.mp he
        simp [he, this]
      · have : st ≠ [] := fun hc => he (by simp [hc])
        simp [he, this]
    · simp [updateState, hh]
  · rcases hh : n.holding with _ | h
    · simp [updateState, hh]
    · simp only [updateState, hh, hst]
      rcases hl : st.getLast? with _ | top
      · have : st = [] := by
          cases st with
          | nil => rfl
          | cons a as => simp [List.getLast?] at hl
        simp [hl, this, hh]
      · have hne : st ≠ [] := by
          rintro rfl
          simp at hl
        by_cases hcp : canPlace (lookupObj n.world h) (lookupObj n.world top) = true
        · simp [hcp, hh, hl, hne]
        · simp only [if_neg hcp]
          simp only [Option.isSome_none, Bool.false_eq_true, false_iff]
          rintro ⟨h', hh', hcase⟩
          injection hh' with hh'
          subst hh'
          rcases hcase with hcase | ⟨top', hl', hcp'⟩
          · simp only [Option.getD_some] at hcase
            exact hne hcase
          · simp only [Option.getD_some] at hl'
            rw [hl] at hl'
            injection hl' with hl'
            subst hl'
            exact hcp hcp'
  · intro s hs
    have := (hmem s).mp hs
    rw [updateState_id this.2.1, encodeId_join]
  · intro disc hd
    exact discoveredUpdate_nodup hd _


/-- Witness for C4 at the start node of `exWorld`. -/
theorem C4_low_level_successors_witness :
    (LowNode.fromWorld exWorld).arm < (LowNode.fromWorld exWorld).stacks'.length
    ∧ ((updateState "l" (LowNode.fromWorld exWorld)).isSome
        ↔ (LowNode.fromWorld exWorld).arm ≠ 0) :=
  ⟨by decide, (C4_low_level_successors (LowNode.fromWorld exWorld) (by decide)).1⟩


/-!
## Verification of the A* engine

`Chain g a p b` says that `p` is a path of graph edges from `a` to `b`;
`chainCost` sums its costs.  The correctness argument for `aStarSearch`
works with an invariant over the frontier and discovered set, following the
standard consistent-heuristic argument.
-/

/-- A path through the graph: a list of successor edges from `a` to `b`. -/
inductive Chain {Node : Type} (g : AGraph Node Rat) : Node → List (Successor Node Rat) → Node → Prop
  | nil (n : Node) : Chain g n [] n
  | cons {a : Node} {s : Successor Node Rat} {l : List (Successor Node Rat)} {b : Node}
      (hs : s ∈ g.successors a) (hc : Chain g s.child l b) : Chain g a (s :: l) b

/-- The cost of a path: the sum of its edge costs. -/
def chainCost {Node : Type} (l : List (Successor Node Rat)) : Rat :=
  (l.map (fun s => s.cost)).sum

theorem chainCost_nil {Node : Type} : chainCost ([] : List (Successor Node Rat)) = 0 := rfl

theorem chainCost_cons {Node : Type} (s : Successor Node Rat) (l : List (Successor Node Rat)) :
    chainCost (s :: l) = s.cost + chainCost l := by
  simp [chainCost]

theorem chainCost_append {Node : Type} (l l' : List (Successor Node Rat)) :
    chainCost (l ++ l') = chainCost l + chainCost l' := by
  simp [chainCost]

theorem Chain.append_edge {Node : Type} {g : AGraph Node Rat} {a b : Node}
    {l : List (Successor Node Rat)} (hc : Chain g a l b) {s : Successor Node Rat}
    (hs : s ∈ g.successors b) : Chain g a (l ++ [s]) s.child := by
  induction hc with
  | nil n => exact Chain.cons hs (Chain.nil _)
  | cons hs' hc' ih => exact Chain.cons hs' (ih hs)

theorem Chain.take_drop {Node : Type} {g : AGraph Node Rat} {a b : Node}
    {l : List (Successor Node Rat)} (hc : Chain g a l b) (j : Nat) :
    ∃ m : Node, Chain g a (l.take j) m ∧ Chain g m (l.drop j) b := by
  induction hc generalizing j with
  | nil n => exact ⟨n, by simp [Chain.nil], by simp [Chain.nil]⟩
  | @cons a s l' b hs hc' ih =>
    rcases j with _ | j'
    · exact ⟨a, Chain.nil a, Chain.cons hs hc'⟩
    · obtain ⟨m, h1, h2⟩ := ih j'
      exact ⟨m, Chain.cons hs h1, h2⟩

/-- Every edge of a chain is a successor edge of some node. -/
theorem Chain.edge_pos {Node : Type} {g : AGraph Node Rat} {a b : Node}
    {l : List (Successor Node Rat)}
    (hpos : ∀ n : Node, ∀ s ∈ g.successors n, (0 : Rat) < s.cost)
    (hc : Chain g a l b) : ∀ s ∈ l, (0 : Rat) < s.cost := by
  induction hc with
  | nil n => simp
  | cons hs hc' ih =>
    intro s hmem
    rcases List.mem_cons.mp hmem with rfl | hmem'
    · exact hpos _ _ hs
    · exact ih s hmem'

theorem chainCost_nonneg {Node : Type} {g : AGraph Node Rat} {a b : Node}
    {l : List (Successor Node Rat)}
    (hpos : ∀ n : Node, ∀ s ∈ g.successors n, (0 : Rat) < s.cost)
    (hc : Chain g a l b) : (0 : Rat) ≤ chainCost l := by
  induction hc with
  | nil n => simp [chainCost_nil]
  | cons hs hc' ih =>
    rw [chainCost_cons]
    have := hpos _ _ hs
    linarith

/-- Consistency telescoped along a chain. -/
theorem heur_telescope {Node : Type} {g : AGraph Node Rat} {h : Node → Rat}
    (hcons : ∀ n : Node, ∀ s ∈ g.successors n, h n ≤ s.cost + h s.child)
    {a b : Node} {l : List (Successor Node Rat)} (hc : Chain g a l b) :
    h a ≤ chainCost l + h b := by
  induction hc with
  | nil n => simp [chainCost_nil]
  | @cons a s l' b hs hc' ih =>
    have h1 := hcons a s hs
    rw [chainCost_cons]
    linarith

/-- The last edge of a nonempty chain ends at the chain's endpoint. -/
theorem Chain.mem_split {Node : Type} {g : AGraph Node Rat} {a b : Node}
    {l : List (Successor Node Rat)} (hc : Chain g a l b) :
    ∀ s ∈ l, s ∈ l.dropLast ∨ s.child = b := by
  induction hc with
  | nil n => simp
  | @cons a s l' b hs hc' ih =>
    intro x hx
    rcases l' with _ | ⟨y, ys⟩
    · rcases List.mem_singleton.mp hx with rfl
      cases hc'
      exact Or.inr rfl
    · rcases List.mem_cons.mp hx with rfl | hx'
      · exact Or.inl (by simp)
      · rcases ih x hx' with h1 | h2
        · exact Or.inl (by simp [List.dropLast, h1])
        · exact Or.inr h2


theorem pickMin_none {Node C : Type} [LinearOrder C] [Add C]
    {q : List (SearchNode Node C)} (hp : pickMin q = none) : q = [] := by
  cases q with
  | nil => rfl
  | cons x xs =>
    exfalso
    rcases hq : pickMin xs with _ | ⟨m, r⟩ <;> simp only [pickMin, hq] at hp
    · cases hp
    · split at hp <;> cases hp

theorem pickMin_mem {Node C : Type} [LinearOrder C] [Add C]
    {q : List (SearchNode Node C)} {m : SearchNode Node C}
    {rest : List (SearchNode Node C)} (hp : pickMin q = some (m, rest)) : m ∈ q := by
  induction q generalizing m rest with
  | nil => simp [pickMin] at hp
  | cons x xs ih =>
    rcases hq : pickMin xs with _ | ⟨m', rest'⟩ <;> simp only [pickMin, hq] at hp
    · obtain ⟨h1, h2⟩ := Prod.mk.injEq .. ▸ (Option.some.injEq .. ▸ hp)
      subst h1
      simp
    · split at hp <;>
        obtain ⟨h1, h2⟩ := Prod.mk.injEq .. ▸ (Option.some.injEq .. ▸ hp)
      · subst h1
        simp
      · subst h1
        exact List.mem_cons_of_mem _ (ih hq)

theorem pickMin_min {Node C : Type} [LinearOrder C] [Add C]
    {q : List (SearchNode Node C)} {m : SearchNode Node C}
    {rest : List (SearchNode Node C)} (hp : pickMin q = some (m, rest)) :
    ∀ r ∈ q, totalCost m ≤ totalCost r := by
  induction q generalizing m rest with
  | nil => simp [pickMin] at hp
  | cons x xs ih =>
    rcases hq : pickMin xs with _ | ⟨m', rest'⟩ <;> simp only [pickMin, hq] at hp
    · obtain ⟨h1, h2⟩ := Prod.mk.injEq .. ▸ (Option.some.injEq .. ▸ hp)
      subst h1
      have hxs : xs = [] := pickMin_none hq
      subst hxs
      intro r hr
      rcases List.mem_cons.mp hr with rfl | hr'
      · exact le_refl _
      · simp at hr'
    · split at hp <;>
        obtain ⟨h1, h2⟩ := Prod.mk.injEq .. ▸ (Option.some.injEq .. ▸ hp)
      · next hle =>
        subst h1
        intro r hr
        rcases List.mem_cons.mp hr with rfl | hr'
        · exact le_refl _
        · exact le_trans hle (ih hq r hr')
      · next hle =>
        subst h1
        intro r hr
        rcases List.mem_cons.mp hr with rfl | hr'
        · exact le_of_lt (lt_of_not_le hle)
        · exact ih hq r hr'

theorem pickMin_perm {Node C : Type} [LinearOrder C] [Add C]
    {q : List (SearchNode Node C)} {m : SearchNode Node C}
    {rest : List (SearchNode Node C)} (hp : pickMin q = some (m, rest)) :
    q.Perm (m :: rest) := by
  induction q generalizing m rest with
  | nil => simp [pickMin] at hp
  | cons x xs ih =>
    rcases hq : pickMin xs with _ | ⟨m', rest'⟩ <;> simp only [pickMin, hq] at hp
    · obtain ⟨h1, h2⟩ := Prod.mk.injEq .. ▸ (Option.some.injEq .. ▸ hp)
      subst h1
      subst h2
      have hxs : xs = [] := pickMin_none hq
      subst hxs
      exact List.Perm.refl _
    · split at hp <;>
        obtain ⟨h1, h2⟩ := Prod.mk.injEq .. ▸ (Option.some.injEq .. ▸ hp)
      · subst h1
        subst h2
        exact List.Perm.refl _
      · subst h1
        subst h2
        exact List.Perm.trans ((ih hq).cons x) (List.Perm.swap _ _ _)


theorem dictGet_dictSet_self {Node S : Type} [DecidableEq Node]
    (d : List (Node × S)) (k : Node) (v : S) :
    dictGet (dictSet d k v) k = some v := by
  induction d with
  | nil => simp [dictSet, dictGet]
  | cons p rest ih =>
    obtain ⟨k', v'⟩ := p
    by_cases hk : k' = k
    · subst hk
      simp [dictSet, dictGet]
    · simp only [dictSet, if_neg hk]
      simp only [dictGet, List.find?]
      rw [show (decide (k' = k)) = false by simp [hk]]
      exact ih

theorem dictGet_dictSet_ne {Node S : Type} [DecidableEq Node]
    (d : List (Node × S)) (k k' : Node) (v : S) (hne : k' ≠ k) :
    dictGet (dictSet d k v) k' = dictGet d k' := by
  induction d with
  | nil => simp [dictSet, dictGet, List.find?, Ne.symm hne]
  | cons p rest ih =>
    obtain ⟨k0, v0⟩ := p
    by_cases hk : k0 = k
    · subst hk
      simp only [dictSet, if_pos rfl]
      simp only [dictGet, List.find?]
      rw [show (decide (k0 = k')) = false by simp [Ne.symm hne]]
    · simp only [dictSet, if_neg hk]
      simp only [dictGet, List.find?]
      by_cases hk0 : k0 = k'
      · simp [hk0]
      · rw [show (decide (k0 = k')) = false by simp [hk0]]
        exact ih


theorem dictGet_dictRemove_self {Node S : Type} [DecidableEq Node]
    {d : List (Node × S)} (hnd : (d.map Prod.fst).Nodup) (k : Node) :
    dictGet (dictRemove d k) k = none := by
  induction d with
  | nil => simp [dictRemove, dictGet]
  | cons p rest ih =>
    obtain ⟨k0, v0⟩ := p
    simp only [List.map, List.nodup_cons] at hnd
    by_cases hk : k0 = k
    · subst hk
      rw [show dictRemove ((k0, v0) :: rest) k0 = rest by simp [dictRemove]]
      simp only [dictGet]
      have hnone : rest.find? (fun p => decide (p.1 = k0)) = none := by
        apply List.find?_eq_none.mpr
        intro p hp
        simp only [decide_eq_true_eq]
        intro hdec
        exact hnd.1 (hdec ▸ List.mem_map_of_mem Prod.fst hp)
      rw [hnone]
      rfl
    · simp only [dictRemove, if_neg hk]
      simp only [dictGet, List.find?]
      rw [show (decide (k0 = k)) = false by simp [hk]]
      exact ih hnd.2

theorem dictGet_dictRemove_ne {Node S : Type} [DecidableEq Node]
    (d : List (Node × S)) (k k' : Node) (hne : k' ≠ k) :
    dictGet (dictRemove d k) k' = dictGet d k' := by
  induction d with
  | nil => simp [dictRemove, dictGet]
  | cons p rest ih =>
    obtain ⟨k0, v0⟩ := p
    by_cases hk : k0 = k
    · subst hk
      rw [show dictRemove ((k0, v0) :: rest) k0 = rest by simp [dictRemove]]
      simp only [dictGet, List.find?]
      rw [show (decide (k0 = k')) = false by simp [Ne.symm hne]]
    · simp only [dictRemove, if_neg hk]
      simp only [dictGet, List.find?]
      by_cases hk0 : k0 = k'
      · simp [hk0]
      · rw [show (decide (k0 = k')) = false by simp [hk0]]
        exact ih

theorem dictSet_mem_keys {Node S : Type} [DecidableEq Node]
    {d : List (Node × S)} {k : Node} {v : S} :
    ∀ x ∈ dictSet d k v, x.1 = k ∨ x.1 ∈ d.map Prod.fst := by
  induction d with
  | nil =>
    intro x hx
    simp [dictSet] at hx
    simp [hx]
  | cons q qs ihq =>
    obtain ⟨kq, vq⟩ := q
    intro x hx
    by_cases hq : kq = k
    · subst hq
      rw [show dictSet ((kq, vq) :: qs) kq v = (kq, v) :: qs by simp [dictSet]] at hx
      rcases List.mem_cons.mp hx with rfl | hx'
      · exact Or.inl rfl
      · exact Or.inr (by simp only [List.map, List.mem_cons]; exact Or.inr (List.mem_map_of_mem Prod.fst hx'))
    · simp only [dictSet, if_neg hq] at hx
      rcases List.mem_cons.mp hx with rfl | hx'
      · exact Or.inr (by simp)
      · rcases ihq x hx' with h | h
        · exact Or.inl h
        · exact Or.inr (by simp only [List.map, List.mem_cons]; exact Or.inr h)

theorem dictRemove_subset {Node S : Type} [DecidableEq Node]
    {d : List (Node × S)} {k : Node} : ∀ x ∈ dictRemove d k, x ∈ d := by
  induction d with
  | nil => simp [dictRemove]
  | cons q qs ihq =>
    obtain ⟨kq, vq⟩ := q
    intro x hx
    by_cases hq : kq = k
    · subst hq
      rw [show dictRemove ((kq, vq) :: qs) kq = qs by simp [dictRemove]] at hx
      exact List.mem_cons_of_mem _ hx
    · simp only [dictRemove, if_neg hq] at hx
      rcases List.mem_cons.mp hx with rfl | hx'
      · simp
      · exact List.mem_cons_of_mem _ (ihq x hx')

theorem dictSet_keys_nodup {Node S : Type} [DecidableEq Node]
    {d : List (Node × S)} (hnd : (d.map Prod.fst).Nodup) (k : Node) (v : S) :
    ((dictSet d k v).map Prod.fst).Nodup := by
  induction d with
  | nil => simp [dictSet]
  | cons p rest ih =>
    obtain ⟨k0, v0⟩ := p
    simp only [List.map, List.nodup_cons] at hnd
    by_cases hk : k0 = k
    · subst hk
      rw [show dictSet ((k0, v0) :: rest) k0 v = (k0, v) :: rest by simp [dictSet]]
      simpa using hnd
    · simp only [dictSet, if_neg hk, List.map, List.nodup_cons]
      refine ⟨?_, ih hnd.2⟩
      intro hmem
      obtain ⟨x, hx1, hx2⟩ := List.mem_map.mp hmem
      rcases dictSet_mem_keys x hx1 with h | h
      · exact hk (hx2 ▸ h.symm).symm
      · exact hnd.1 (hx2 ▸ h)

theorem dictRemove_keys_nodup {Node S : Type} [DecidableEq Node]
    {d : List (Node × S)} (hnd : (d.map Prod.fst).Nodup) (k : Node) :
    ((dictRemove d k).map Prod.fst).Nodup := by
  induction d with
  | nil => simp [dictRemove]
  | cons p rest ih =>
    obtain ⟨k0, v0⟩ := p
    simp only [List.map, List.nodup_cons] at hnd
    by_cases hk : k0 = k
    · subst hk
      rw [show dictRemove ((k0, v0) :: rest) k0 = rest by simp [dictRemove]]
      exact hnd.2
    · simp only [dictRemove, if_neg hk, List.map, List.nodup_cons]
      refine ⟨?_, ih hnd.2⟩
      intro hmem
      obtain ⟨x, hx1, hx2⟩ := List.mem_map.mp hmem
      exact hnd.1 (hx2 ▸ List.mem_map_of_mem Prod.fst (dictRemove_subset x hx1))

theorem dictGet_mem {Node S : Type} [DecidableEq Node]
    {d : List (Node × S)} {k : Node} {v : S} (h : dictGet d k = some v) :
    (k, v) ∈ d ∧ k ∈ d.map Prod.fst := by
  unfold dictGet at h
  rcases hf : d.find? (fun p => decide (p.1 = k)) with _ | p
  · rw [hf] at h; cases h
  · rw [hf] at h
    injection h with h
    have hp1 := List.find?_some hf
    have hp2 := List.mem_of_find?_eq_some hf
    simp only [decide_eq_true_eq] at hp1
    subst h
    subst hp1
    exact ⟨hp2, List.mem_map_of_mem Prod.fst hp2⟩

theorem dictGet_isSome_of_mem {Node S : Type} [DecidableEq Node]
    {d : List (Node × S)} {k : Node} (h : k ∈ d.map Prod.fst) :
    ∃ v, dictGet d k = some v := by
  induction d with
  | nil => simp at h
  | cons p rest ih =>
    obtain ⟨k0, v0⟩ := p
    by_cases hk : k0 = k
    · subst hk
      exact ⟨v0, by simp [dictGet, List.find?]⟩
    · simp only [List.map, List.mem_cons] at h
      rcases h with h | h
    -- h : k = k0 contradicts
      · exact absurd h.symm hk
      · obtain ⟨v, hv⟩ := ih h
        refine ⟨v, ?_⟩
        simp only [dictGet, List.find?] at hv ⊢
        rw [show (decide (k0 = k)) = false by simp [hk]]
        exact hv


/-- The heuristic value recorded for a node: the start record carries 0, every
other record carries the heuristic function's value. -/
def hf {Node : Type} (start : Node) (h : Node → Rat) (u : Node) [Decidable (u = start)] : Rat :=
  if u = start then 0 else h u

/-- Frontier invariant: every queue record carries a genuine path from the
start with matching cost and heuristic and no goal before its endpoint; the
dictionary points into the queue, has unique keys, and both structures only
mention discovered nodes. -/
def FInv {Node : Type} [DecidableEq Node] (g : AGraph Node Rat) (start : Node)
    (goal : Node → Bool) (h : Node → Rat) (fr : Frontier Node Rat)
    (disc : List Node) : Prop :=
  (∀ r ∈ fr.queue,
     Chain g start r.path r.node.child
     ∧ r.pathCost = chainCost r.path
     ∧ r.heuristic = hf start h r.node.child
     ∧ (∀ s ∈ r.path.dropLast, goal s.child = false)
     ∧ (r.node.child = start → r.pathCost = 0))
  ∧ (∀ k r, dictGet fr.dict k = some r → r ∈ fr.queue ∧ r.node.child = k)
  ∧ (fr.dict.map Prod.fst).Nodup
  ∧ (∀ r ∈ fr.queue, r.node.child ∈ disc)
  ∧ (∀ k r, dictGet fr.dict k = some r → k ∈ disc)

/-- Facts about the record being expanded. -/
def CurOK {Node : Type} (g : AGraph Node Rat) (start : Node) (goal : Node → Bool)
    (cur : SearchNode Node Rat) : Prop :=
  Chain g start cur.path cur.node.child
  ∧ cur.pathCost = chainCost cur.path
  ∧ (∀ s ∈ cur.path, goal s.child = false)
  ∧ goal cur.node.child = false

theorem Frontier.add_queue_mem {Node : Type} [DecidableEq Node]
    {fr : Frontier Node Rat} {r x : SearchNode Node Rat} :
    x ∈ (fr.add r).queue ↔ x ∈ fr.queue ∨ x = r := by
  simp [Frontier.add]

/-- Effect of `Frontier.add` on the invariant, for a record with the
invariant's properties. -/
theorem FInv_add {Node : Type} [DecidableEq Node] {g : AGraph Node Rat}
    {start : Node} {goal : Node → Bool} {h : Node → Rat}
    {fr : Frontier Node Rat} {disc : List Node}
    (hfi : FInv g start goal h fr disc) {r : SearchNode Node Rat}
    (hchain : Chain g start r.path r.node.child)
    (hcost : r.pathCost = chainCost r.path)
    (hheur : r.heuristic = hf start h r.node.child)
    (hng : ∀ s ∈ r.path.dropLast, goal s.child = false)
    (hsz : r.node.child = start → r.pathCost = 0)
    (hdisc : r.node.child ∈ disc) :
    FInv g start goal h (fr.add r) disc := by
  obtain ⟨hq, hdm, hdn, hqd, hdd⟩ := hfi
  refine ⟨?_, ?_, ?_, ?_, ?_⟩
  · intro x hx
    rcases Frontier.add_queue_mem.mp hx with hx' | rfl
    · exact hq x hx'
    · exact ⟨hchain, hcost, hheur, hng, hsz⟩
  · intro k x hk
    simp only [Frontier.add] at hk
    by_cases hkr : k = r.node.child
    · subst hkr
      rw [dictGet_dictSet_self] at hk
      injection hk with hk
      subst hk
      exact ⟨Frontier.add_queue_mem.mpr (Or.inr rfl), rfl⟩
    · rw [dictGet_dictSet_ne _ _ _ _ hkr] at hk
      obtain ⟨h1, h2⟩ := hdm k x hk
      exact ⟨Frontier.add_queue_mem.mpr (Or.inl h1), h2⟩
  · exact dictSet_keys_nodup hdn _ _
  · intro x hx
    rcases Frontier.add_queue_mem.mp hx with hx' | rfl
    · exact hqd x hx'
    · exact hdisc
  · intro k x hk
    simp only [Frontier.add] at hk
    by_cases hkr : k = r.node.child
    · subst hkr
      exact hdisc
    · rw [dictGet_dictSet_ne _ _ _ _ hkr] at hk
      exact hdd k x hk


/-- The node reached after the first `j` edges of a chain starting at
`start`. -/
def chainNode {Node : Type} (start : Node) (p : List (Successor Node Rat)) (j : Nat) :
    Node :=
  match (p.take j).getLast? with
  | some s => s.child
  | none => start

theorem chain_endpoint {Node : Type} {g : AGraph Node Rat} {a b : Node}
    {l : List (Successor Node Rat)} (hc : Chain g a l b) :
    b = match l.getLast? with
        | some s => s.child
        | none => a := by
  induction hc with
  | nil n => rfl
  | @cons a s l' b hs hc' ih =>
    rcases l' with _ | ⟨y, ys⟩
    · cases hc'
      rfl
    · simpa [List.getLast?] using ih

theorem chainNode_zero {Node : Type} (start : Node) (p : List (Successor Node Rat)) :
    chainNode start p 0 = start := rfl

theorem chainNode_length {Node : Type} {g : AGraph Node Rat} {start w : Node}
    {p : List (Successor Node Rat)} (hc : Chain g start p w) :
    chainNode start p p.length = w := by
  unfold chainNode
  rw [List.take_length]
  exact (chain_endpoint hc).symm

theorem chainNode_spec {Node : Type} {g : AGraph Node Rat} {start w : Node}
    {p : List (Successor Node Rat)} (hc : Chain g start p w) (j : Nat) :
    Chain g start (p.take j) (chainNode start p j)
    ∧ Chain g (chainNode start p j) (p.drop j) w := by
  obtain ⟨m, h1, h2⟩ := Chain.take_drop hc j
  have hm : m = chainNode start p j := chain_endpoint h1
  rw [← hm]
  exact ⟨h1, h2⟩

theorem chain_edge_at {Node : Type} {g : AGraph Node Rat} {start w : Node}
    {p : List (Successor Node Rat)} (hc : Chain g start p w) {i : Nat}
    (hi : i < p.length) {s : Successor Node Rat} (hs : p.get? i = some s) :
    s ∈ g.successors (chainNode start p i) ∧ chainNode start p (i + 1) = s.child := by
  have hdrop : p.drop i = s :: p.drop (i + 1) := by
    have := List.get?_eq_get hi
    rw [this] at hs
    injection hs with hs
    subst hs
    exact List.drop_eq_get_cons hi |>.symm ▸ rfl
  have h2 := (chainNode_spec hc i).2
  rw [hdrop] at h2
  cases h2 with
  | cons hmem hrest =>
    refine ⟨hmem, ?_⟩
    unfold chainNode
    have hs' : p[i]? = some s := by rw [← List.get?_eq_getElem?]; exact hs
    rw [List.take_succ, hs']
    simp

theorem chainCost_take_succ {Node : Type} {p : List (Successor Node Rat)} {i : Nat}
    {s : Successor Node Rat} (hs : p.get? i = some s) :
    chainCost (p.take (i + 1)) = chainCost (p.take i) + s.cost := by
  have hs' : p[i]? = some s := by rw [← List.get?_eq_getElem?]; exact hs
  rw [List.take_succ, hs']
  simp [chainCost_append, chainCost]

/-- The expansion-closure part of the invariant: every discovered node that
has left the frontier dictionary has had all its successors discovered, and
any dictionary entry for such a successor is at most the cost of reaching
the expanded node plus the edge cost. -/
def ExpClosure {Node : Type} [DecidableEq Node] (g : AGraph Node Rat) (start : Node)
    (fr : Frontier Node Rat) (disc : List Node) : Prop :=
  ∀ u ∈ disc, dictGet fr.dict u = none → ∀ s ∈ g.successors u,
    s.child ∈ disc ∧
    (dictGet fr.dict s.child = none
     ∨ ∃ r, r ∈ fr.queue ∧ r.node.child = s.child
         ∧ ∀ p, Chain g start p u → r.pathCost ≤ chainCost p + s.cost)

/-- From the closure invariant, every chain to a non-expanded node has a
frontier witness: a queue record for a node on the chain whose recorded cost
is at most the chain's prefix cost. -/
theorem walk_witness {Node : Type} [DecidableEq Node] {g : AGraph Node Rat}
    {start : Node} {goal : Node → Bool} {h : Node → Rat}
    {fr : Frontier Node Rat} {disc : List Node}
    (hF : FInv g start goal h fr disc) (hstart : start ∈ disc)
    (hclosure : ExpClosure g start fr disc) {p : List (Successor Node Rat)} {w : Node}
    (hchain : Chain g start p w)
    (hnE : ¬(w ∈ disc ∧ dictGet fr.dict w = none)) :
    ∃ j r, j ≤ p.length ∧ r ∈ fr.queue ∧ r.node.child = chainNode start p j
      ∧ r.pathCost ≤ chainCost (p.take j) := by
  -- walk forward along the chain, by induction on the remaining length
  suffices haux : ∀ m i, i + m = p.length →
      ((chainNode start p i ∈ disc ∧ dictGet fr.dict (chainNode start p i) = none)
        ∨ ∃ r, r ∈ fr.queue ∧ r.node.child = chainNode start p i
            ∧ r.pathCost ≤ chainCost (p.take i)) →
      ∃ j r, j ≤ p.length ∧ r ∈ fr.queue ∧ r.node.child = chainNode start p j
        ∧ r.pathCost ≤ chainCost (p.take j) by
    apply haux p.length 0 (by omega)
    rcases hd : dictGet fr.dict start with _ | r0
    · exact Or.inl ⟨hstart, by rw [chainNode_zero]; exact hd⟩
    · obtain ⟨hq0, hc0⟩ := hF.2.1 start r0 hd
      refine Or.inr ⟨r0, hq0, by rw [chainNode_zero]; exact hc0, ?_⟩
      have hz := (hF.1 r0 hq0).2.2.2.2 hc0
      simp [hz, chainCost_nil]
  intro m
  induction m with
  | zero =>
    intro i hi hbase
    have hip : i = p.length := by omega
    subst hip
    rcases hbase with ⟨hmem, hnone⟩ | ⟨r, hrq, hrc, hb⟩
    · rw [chainNode_length hchain] at hmem hnone
      exact absurd ⟨hmem, hnone⟩ hnE
    · exact ⟨p.length, r, le_refl _, hrq, hrc, hb⟩
  | succ m' ih =>
    intro i hi hbase
    rcases hbase with ⟨hmem, hnone⟩ | ⟨r, hrq, hrc, hb⟩
    · -- the node at i is expanded; move along the chain's next edge
      have hilt : i < p.length := by omega
      obtain ⟨s, hs⟩ : ∃ s, p.get? i = some s :=
        ⟨p.get ⟨i, hilt⟩, List.get?_eq_get hilt⟩
      obtain ⟨hedge, hnext⟩ := chain_edge_at hchain hilt hs
      obtain ⟨hchild_disc, hdisj⟩ := hclosure _ hmem hnone s hedge
      rcases hdisj with hnone' | ⟨r', hr'q, hr'c, hbound⟩
      · refine ih (i + 1) (by omega) (Or.inl ?_)
        rw [hnext]
        exact ⟨hchild_disc, hnone'⟩
      · refine ih (i + 1) (by omega) (Or.inr ⟨r', hr'q, ?_, ?_⟩)
        · rw [hnext]; exact hr'c
        · have hpre := (chainNode_spec hchain i).1
          have := hbound (p.take i) hpre
          rw [chainCost_take_succ hs]
          exact this
    · exact ⟨i, r, by omega, hrq, hrc, hb⟩


/-- The full loop invariant of `aStarGo`. -/
def AInv {Node : Type} [DecidableEq Node] (g : AGraph Node Rat) (start : Node)
    (goal : Node → Bool) (h : Node → Rat) (fr : Frontier Node Rat)
    (disc : List Node) : Prop :=
  FInv g start goal h fr disc
  ∧ start ∈ disc
  ∧ (∀ u ∈ disc, dictGet fr.dict u = none → goal u = false)
  ∧ ExpClosure g start fr disc

/-- The dequeued record's total cost is below the cost of any chain to a
non-expanded node plus that node's heuristic. -/
theorem popped_le {Node : Type} [DecidableEq Node] {g : AGraph Node Rat}
    {start : Node} {goal : Node → Bool} {h : Node → Rat}
    (hnn : ∀ n : Node, 0 ≤ h n)
    (hcons : ∀ n : Node, ∀ s ∈ g.successors n, h n ≤ s.cost + h s.child)
    {fr : Frontier Node Rat} {disc : List Node}
    (hA : AInv g start goal h fr disc)
    {cur : SearchNode Node Rat} {fr1 : Frontier Node Rat}
    (hdq : fr.dequeue = some (cur, fr1))
    {p : List (Successor Node Rat)} {w : Node} (hchain : Chain g start p w)
    (hnE : ¬(w ∈ disc ∧ dictGet fr.dict w = none)) :
    cur.pathCost + hf start h cur.node.child ≤ chainCost p + h w := by
  obtain ⟨hF, hstart, hng, hclosure⟩ := hA
  obtain ⟨j, r, hj, hrq, hrchild, hb⟩ := walk_witness hF hstart hclosure hchain hnE
  -- the dequeue comes from pickMin
  unfold Frontier.dequeue at hdq
  rcases hpm : pickMin fr.queue with _ | ⟨m, rest⟩
  · rw [hpm] at hdq; cases hdq
  · rw [hpm] at hdq
    simp only [Option.map_some'] at hdq
    obtain ⟨h1, h2⟩ := Prod.mk.injEq .. ▸ (Option.some.injEq .. ▸ hdq)
    have hcurq : cur ∈ fr.queue := h1 ▸ pickMin_mem hpm
    have hmin := h1 ▸ pickMin_min hpm r hrq
    have hcurh := (hF.1 cur hcurq).2.2.1
    have hrh := (hF.1 r hrq).2.2.1
    unfold totalCost at hmin
    rw [hcurh, hrh, hrchild] at hmin
    -- the witness node's stored heuristic is below its heuristic value
    have hhf : hf start h (chainNode start p j) ≤ h (chainNode start p j) := by
      unfold hf
      split
    -- start case: 0 ≤ h start
      · exact hnn _
      · exact le_refl _
    have htel : h (chainNode start p j) ≤ chainCost (p.drop j) + h w :=
      heur_telescope hcons (chainNode_spec hchain j).2
    have hsplit : chainCost p = chainCost (p.take j) + chainCost (p.drop j) := by
      conv_lhs => rw [← List.take_append_drop j p]
      exact chainCost_append _ _
    linarith


theorem improveStep_eq_of_none {Node : Type} [DecidableEq Node]
    {c : SearchNode Node Rat} {fr : Frontier Node Rat} {s : Successor Node Rat}
    (hd : dictGet fr.dict s.child = none) :
    improveStep c fr s = fr := by
  unfold improveStep
  rw [hd]

theorem improveStep_eq_of_some {Node : Type} [DecidableEq Node]
    {c : SearchNode Node Rat} {fr : Frontier Node Rat} {s : Successor Node Rat}
    {sn : SearchNode Node Rat} (hd : dictGet fr.dict s.child = some sn) :
    improveStep c fr s =
      if c.pathCost + s.cost < sn.pathCost then
        fr.add ⟨c.pathCost + s.cost, sn.heuristic, s, c.path ++ [s]⟩
      else fr := by
  unfold improveStep
  rw [hd]

theorem improveStep_dict_none {Node : Type} [DecidableEq Node]
    {c : SearchNode Node Rat} {fr : Frontier Node Rat} {s : Successor Node Rat}
    {k : Node} (hk : dictGet fr.dict k = none) :
    dictGet (improveStep c fr s).dict k = none := by
  rcases hd : dictGet fr.dict s.child with _ | sn
  · rw [improveStep_eq_of_none hd]; exact hk
  · rw [improveStep_eq_of_some hd]
    split
    · have hne : k ≠ s.child := fun he => by rw [he, hd] at hk; cases hk
      show dictGet (dictSet fr.dict s.child _) k = none
      rw [dictGet_dictSet_ne _ _ _ _ hne]
      exact hk
    · exact hk

theorem improveStep_dict_none_back {Node : Type} [DecidableEq Node]
    {c : SearchNode Node Rat} {fr : Frontier Node Rat} {s : Successor Node Rat}
    {k : Node} (hk : dictGet (improveStep c fr s).dict k = none) :
    dictGet fr.dict k = none := by
  rcases hd : dictGet fr.dict s.child with _ | sn
  · rw [improveStep_eq_of_none hd] at hk; exact hk
  · rw [improveStep_eq_of_some hd] at hk
    split at hk
    · by_cases hke : k = s.child
      · subst hke
        rw [show (fr.add ⟨c.pathCost + s.cost, sn.heuristic, s, c.path ++ [s]⟩).dict
              = dictSet fr.dict s.child ⟨c.pathCost + s.cost, sn.heuristic, s, c.path ++ [s]⟩
            from rfl, dictGet_dictSet_self] at hk
        cases hk
      · rw [show (fr.add ⟨c.pathCost + s.cost, sn.heuristic, s, c.path ++ [s]⟩).dict
              = dictSet fr.dict s.child ⟨c.pathCost + s.cost, sn.heuristic, s, c.path ++ [s]⟩
            from rfl, dictGet_dictSet_ne _ _ _ _ hke] at hk
        exact hk
    · exact hk

theorem improveStep_dict_mono {Node : Type} [DecidableEq Node]
    {c : SearchNode Node Rat} {fr : Frontier Node Rat} {s : Successor Node Rat}
    {k : Node} {r' : SearchNode Node Rat}
    (hk : dictGet (improveStep c fr s).dict k = some r') :
    ∃ r, dictGet fr.dict k = some r ∧ r'.pathCost ≤ r.pathCost := by
  rcases hd : dictGet fr.dict s.child with _ | sn
  · rw [improveStep_eq_of_none hd] at hk; exact ⟨r', hk, le_refl _⟩
  · rw [improveStep_eq_of_some hd] at hk
    split at hk
    · next hlt =>
      by_cases hke : k = s.child
      · subst hke
        rw [show (fr.add ⟨c.pathCost + s.cost, sn.heuristic, s, c.path ++ [s]⟩).dict
              = dictSet fr.dict s.child ⟨c.pathCost + s.cost, sn.heuristic, s, c.path ++ [s]⟩
            from rfl, dictGet_dictSet_self] at hk
        injection hk with hk
        subst hk
        exact ⟨sn, hd, le_of_lt hlt⟩
      · rw [show (fr.add ⟨c.pathCost + s.cost, sn.heuristic, s, c.path ++ [s]⟩).dict
              = dictSet fr.dict s.child ⟨c.pathCost + s.cost, sn.heuristic, s, c.path ++ [s]⟩
            from rfl, dictGet_dictSet_ne _ _ _ _ hke] at hk
        exact ⟨r', hk, le_refl _⟩
    · exact ⟨r', hk, le_refl _⟩

theorem improveStep_dict_le {Node : Type} [DecidableEq Node]
    {c : SearchNode Node Rat} {fr : Frontier Node Rat} {s : Successor Node Rat}
    {k : Node} {r : SearchNode Node Rat}
    (hk : dictGet fr.dict k = some r) :
    ∃ r', dictGet (improveStep c fr s).dict k = some r' ∧ r'.pathCost ≤ r.pathCost := by
  rcases hk2 : dictGet (improveStep c fr s).dict k with _ | r'
  · rw [improveStep_dict_none_back hk2] at hk; cases hk
  · obtain ⟨r0, hr0, hle⟩ := improveStep_dict_mono hk2
    rw [hk] at hr0
    injection hr0 with hr0
    subst hr0
    exact ⟨r', rfl, hle⟩

theorem improveStep_relax {Node : Type} [DecidableEq Node]
    {c : SearchNode Node Rat} {fr : Frontier Node Rat} {s : Successor Node Rat}
    {sn : SearchNode Node Rat}
    (hd : dictGet fr.dict s.child = some sn) :
    ∃ r', dictGet (improveStep c fr s).dict s.child = some r'
      ∧ r'.pathCost ≤ c.pathCost + s.cost := by
  rw [improveStep_eq_of_some hd]
  split
  · next hlt =>
    refine ⟨⟨c.pathCost + s.cost, sn.heuristic, s, c.path ++ [s]⟩, ?_, le_refl _⟩
    exact dictGet_dictSet_self _ _ _
  · next hnlt => exact ⟨sn, hd, le_of_not_lt hnlt⟩

theorem improveStep_queue_sub {Node : Type} [DecidableEq Node]
    {c : SearchNode Node Rat} {fr : Frontier Node Rat} {s : Successor Node Rat}
    {r : SearchNode Node Rat} (hr : r ∈ fr.queue) :
    r ∈ (improveStep c fr s).queue := by
  rcases hd : dictGet fr.dict s.child with _ | sn
  · rw [improveStep_eq_of_none hd]; exact hr
  · rw [improveStep_eq_of_some hd]
    split
    · exact List.mem_append_left _ hr
    · exact hr

theorem addStep_dict_ne {Node : Type} [DecidableEq Node]
    {c : SearchNode Node Rat} {h : Node → Rat} {fr : Frontier Node Rat}
    {s : Successor Node Rat} {k : Node} (hne : k ≠ s.child) :
    dictGet (addStep c h fr s).dict k = dictGet fr.dict k := by
  show dictGet (dictSet fr.dict s.child _) k = _
  exact dictGet_dictSet_ne _ _ _ _ hne

theorem addStep_dict_isSome {Node : Type} [DecidableEq Node]
    {c : SearchNode Node Rat} {h : Node → Rat} {fr : Frontier Node Rat}
    {s : Successor Node Rat} {k : Node}
    (hk : (dictGet fr.dict k).isSome) :
    (dictGet (addStep c h fr s).dict k).isSome := by
  by_cases hke : k = s.child
  · rw [hke]
    show (dictGet (dictSet fr.dict s.child _) s.child).isSome
    rw [dictGet_dictSet_self]
    rfl
  · rw [addStep_dict_ne hke]
    exact hk

theorem addStep_queue_sub {Node : Type} [DecidableEq Node]
    {c : SearchNode Node Rat} {h : Node → Rat} {fr : Frontier Node Rat}
    {s : Successor Node Rat} {r : SearchNode Node Rat} (hr : r ∈ fr.queue) :
    r ∈ (addStep c h fr s).queue :=
  List.mem_append_left _ hr

theorem addStep_pushes {Node : Type} [DecidableEq Node]
    {c : SearchNode Node Rat} {h : Node → Rat} {fr : Frontier Node Rat}
    {s : Successor Node Rat} :
    (⟨c.pathCost + s.cost, h s.child, s, c.path ++ [s]⟩ : SearchNode Node Rat)
      ∈ (addStep c h fr s).queue :=
  List.mem_append_right _ (List.mem_singleton_self _)


theorem improvePhase_dict_none {Node : Type} [DecidableEq Node]
    {c : SearchNode Node Rat} {l : List (Successor Node Rat)}
    {fr : Frontier Node Rat} {k : Node} (hk : dictGet fr.dict k = none) :
    dictGet (improvePhase c l fr).dict k = none := by
  induction l generalizing fr with
  | nil => exact hk
  | cons x xs ih => exact ih (improveStep_dict_none hk)

theorem improvePhase_dict_none_back {Node : Type} [DecidableEq Node]
    {c : SearchNode Node Rat} {l : List (Successor Node Rat)}
    {fr : Frontier Node Rat} {k : Node}
    (hk : dictGet (improvePhase c l fr).dict k = none) :
    dictGet fr.dict k = none := by
  induction l generalizing fr with
  | nil => exact hk
  | cons x xs ih => exact improveStep_dict_none_back (ih hk)

theorem improvePhase_dict_mono {Node : Type} [DecidableEq Node]
    {c : SearchNode Node Rat} {l : List (Successor Node Rat)}
    {fr : Frontier Node Rat} {k : Node} {r' : SearchNode Node Rat}
    (hk : dictGet (improvePhase c l fr).dict k = some r') :
    ∃ r, dictGet fr.dict k = some r ∧ r'.pathCost ≤ r.pathCost := by
  induction l generalizing fr with
  | nil => exact ⟨r', hk, le_refl _⟩
  | cons x xs ih =>
    obtain ⟨r1, hr1, hle1⟩ := ih hk
    obtain ⟨r0, hr0, hle0⟩ := improveStep_dict_mono hr1
    exact ⟨r0, hr0, le_trans hle1 hle0⟩

theorem improvePhase_dict_le {Node : Type} [DecidableEq Node]
    {c : SearchNode Node Rat} {l : List (Successor Node Rat)}
    {fr : Frontier Node Rat} {k : Node} {r : SearchNode Node Rat}
    (hk : dictGet fr.dict k = some r) :
    ∃ r', dictGet (improvePhase c l fr).dict k = some r' ∧ r'.pathCost ≤ r.pathCost := by
  induction l generalizing fr r with
  | nil => exact ⟨r, hk, le_refl _⟩
  | cons x xs ih =>
    obtain ⟨r1, hr1, hle1⟩ := improveStep_dict_le (c := c) (s := x) hk
    obtain ⟨r', hr', hle'⟩ := ih hr1
    exact ⟨r', hr', le_trans hle' hle1⟩

theorem improvePhase_queue_sub {Node : Type} [DecidableEq Node]
    {c : SearchNode Node Rat} {l : List (Successor Node Rat)}
    {fr : Frontier Node Rat} {r : SearchNode Node Rat} (hr : r ∈ fr.queue) :
    r ∈ (improvePhase c l fr).queue := by
  induction l generalizing fr with
  | nil => exact hr
  | cons x xs ih => exact ih (improveStep_queue_sub hr)

theorem improvePhase_relax {Node : Type} [DecidableEq Node]
    {c : SearchNode Node Rat} {l : List (Successor Node Rat)}
    {fr : Frontier Node Rat} {s : Successor Node Rat} {sn : SearchNode Node Rat}
    (hs : s ∈ l) (hd : dictGet fr.dict s.child = some sn) :
    ∃ r', dictGet (improvePhase c l fr).dict s.child = some r'
      ∧ r'.pathCost ≤ c.pathCost + s.cost := by
  obtain ⟨l1, l2, rfl⟩ := List.append_of_mem hs
  show ∃ r', dictGet ((l1 ++ s :: l2).foldl (improveStep c) fr).dict s.child = some r' ∧ _
  rw [List.foldl_append]
  obtain ⟨r1, hr1, _⟩ := improvePhase_dict_le (c := c) (l := l1) hd
  obtain ⟨r2, hr2, hle2⟩ := improveStep_relax (c := c) hr1
  obtain ⟨r3, hr3, hle3⟩ := improvePhase_dict_le (c := c) (l := l2) hr2
  exact ⟨r3, hr3, le_trans hle3 hle2⟩

theorem addPhase_dict_other {Node : Type} [DecidableEq Node]
    {c : SearchNode Node Rat} {h : Node → Rat} {l : List (Successor Node Rat)}
    {fr : Frontier Node Rat} {k : Node} (hk : ∀ s ∈ l, k ≠ s.child) :
    dictGet (addPhase c h l fr).dict k = dictGet fr.dict k := by
  induction l generalizing fr with
  | nil => rfl
  | cons x xs ih =>
    rw [show addPhase c h (x :: xs) fr = addPhase c h xs (addStep c h fr x) from rfl,
      ih (fun s hs => hk s (List.mem_cons_of_mem _ hs)),
      addStep_dict_ne (hk x (List.mem_cons_self _ _))]

theorem addPhase_dict_isSome {Node : Type} [DecidableEq Node]
    {c : SearchNode Node Rat} {h : Node → Rat} {l : List (Successor Node Rat)}
    {fr : Frontier Node Rat} {k : Node} (hk : (dictGet fr.dict k).isSome) :
    (dictGet (addPhase c h l fr).dict k).isSome := by
  induction l generalizing fr with
  | nil => exact hk
  | cons x xs ih => exact ih (addStep_dict_isSome hk)

theorem addPhase_queue_sub {Node : Type} [DecidableEq Node]
    {c : SearchNode Node Rat} {h : Node → Rat} {l : List (Successor Node Rat)}
    {fr : Frontier Node Rat} {r : SearchNode Node Rat} (hr : r ∈ fr.queue) :
    r ∈ (addPhase c h l fr).queue := by
  induction l generalizing fr with
  | nil => exact hr
  | cons x xs ih => exact ih (addStep_queue_sub hr)

theorem addPhase_pushes {Node : Type} [DecidableEq Node]
    {c : SearchNode Node Rat} {h : Node → Rat} {l : List (Successor Node Rat)}
    {fr : Frontier Node Rat} {s : Successor Node Rat} (hs : s ∈ l) :
    (⟨c.pathCost + s.cost, h s.child, s, c.path ++ [s]⟩ : SearchNode Node Rat)
      ∈ (addPhase c h l fr).queue := by
  induction l generalizing fr with
  | nil => cases hs
  | cons x xs ih =>
    rcases List.mem_cons.mp hs with rfl | hs'
    · rw [show addPhase c h (s :: xs) fr = addPhase c h xs (addStep c h fr s) from rfl]
      exact addPhase_queue_sub addStep_pushes
    · exact ih hs'

theorem addPhase_dict_isSome_of_mem {Node : Type} [DecidableEq Node]
    {c : SearchNode Node Rat} {h : Node → Rat} {l : List (Successor Node Rat)}
    {fr : Frontier Node Rat} {s : Successor Node Rat} (hs : s ∈ l) :
    (dictGet (addPhase c h l fr).dict s.child).isSome := by
  induction l generalizing fr with
  | nil => cases hs
  | cons x xs ih =>
    rcases List.mem_cons.mp hs with rfl | hs'
    · rw [show addPhase c h (s :: xs) fr = addPhase c h xs (addStep c h fr s) from rfl]
      refine addPhase_dict_isSome ?_
      show (dictGet (dictSet fr.dict s.child _) s.child).isSome
      rw [dictGet_dictSet_self]
      rfl
    · exact ih hs'


theorem FInv_mono_disc {Node : Type} [DecidableEq Node] {g : AGraph Node Rat}
    {start : Node} {goal : Node → Bool} {h : Node → Rat}
    {fr : Frontier Node Rat} {disc disc2 : List Node}
    (hsub : ∀ u ∈ disc, u ∈ disc2) (hF : FInv g start goal h fr disc) :
    FInv g start goal h fr disc2 := by
  obtain ⟨h1, h2, h3, h4, h5⟩ := hF
  exact ⟨h1, h2, h3, fun r hr => hsub _ (h4 r hr), fun k r hk => hsub _ (h5 k r hk)⟩

theorem FInv_dequeue {Node : Type} [DecidableEq Node] {g : AGraph Node Rat}
    {start : Node} {goal : Node → Bool} {h : Node → Rat}
    {fr : Frontier Node Rat} {disc : List Node}
    (hF : FInv g start goal h fr disc)
    {cur : SearchNode Node Rat} {fr1 : Frontier Node Rat}
    (hdq : fr.dequeue = some (cur, fr1)) :
    cur ∈ fr.queue ∧ fr.queue.Perm (cur :: fr1.queue)
      ∧ fr1.dict = dictRemove fr.dict cur.node.child
      ∧ FInv g start goal h fr1 disc := by
  obtain ⟨hq, hdm, hdn, hqd, hdd⟩ := hF
  unfold Frontier.dequeue at hdq
  rcases hpm : pickMin fr.queue with _ | ⟨m, rest⟩
  · rw [hpm] at hdq; cases hdq
  rw [hpm] at hdq
  simp only [Option.map_some'] at hdq
  obtain ⟨h1, h2⟩ := Prod.mk.injEq .. ▸ (Option.some.injEq .. ▸ hdq)
  have hperm := pickMin_perm hpm
  have hq1 : fr1.queue = rest := by rw [← h2]
  have hd1 : fr1.dict = dictRemove fr.dict cur.node.child := by rw [← h2, h1]
  have hcurm : cur ∈ fr.queue := h1 ▸ pickMin_mem hpm
  have hrest_sub : ∀ r ∈ rest, r ∈ fr.queue := by
    intro r hr
    exact hperm.mem_iff.mpr (List.mem_cons_of_mem _ hr)
  refine ⟨hcurm, by rw [hq1, ← h1]; exact hperm, hd1, ?_, ?_, ?_, ?_, ?_⟩
  · intro r hr
    exact hq r (hrest_sub r (hq1 ▸ hr))
  · intro k r hk
    rw [hd1] at hk
    have hkne : k ≠ cur.node.child := by
      intro he
      rw [he, dictGet_dictRemove_self hdn] at hk
      cases hk
    rw [dictGet_dictRemove_ne _ _ _ hkne] at hk
    obtain ⟨hrq, hrc⟩ := hdm k r hk
    refine ⟨?_, hrc⟩
    rw [hq1]
    have : r ∈ m :: rest := hperm.mem_iff.mp hrq
    rcases List.mem_cons.mp this with rfl | hr'
    · rw [← h1] at hkne
      exact absurd hrc.symm hkne
    · exact hr'
  · rw [hd1]
    exact dictRemove_keys_nodup hdn _
  · intro r hr
    exact hqd r (hrest_sub r (hq1 ▸ hr))
  · intro k r hk
    rw [hd1] at hk
    have hkne : k ≠ cur.node.child := by
      intro he
      rw [he, dictGet_dictRemove_self hdn] at hk
      cases hk
    rw [dictGet_dictRemove_ne _ _ _ hkne] at hk
    exact hdd k r hk

theorem improveStep_FInv {Node : Type} [DecidableEq Node] {g : AGraph Node Rat}
    {start : Node} {goal : Node → Bool} {h : Node → Rat}
    (hpos : ∀ n : Node, ∀ s ∈ g.successors n, (0 : Rat) < s.cost)
    {fr : Frontier Node Rat} {disc : List Node}
    (hF : FInv g start goal h fr disc)
    {c : SearchNode Node Rat}
    (hchain : Chain g start c.path c.node.child)
    (hcost : c.pathCost = chainCost c.path)
    (hng : ∀ t ∈ c.path, goal t.child = false)
    {s : Successor Node Rat} (hs : s ∈ g.successors c.node.child) :
    FInv g start goal h (improveStep c fr s) disc := by
  rcases hd : dictGet fr.dict s.child with _ | sn
  · rw [improveStep_eq_of_none hd]; exact hF
  rw [improveStep_eq_of_some hd]
  split
  · next hlt =>
    by_cases hcs : s.child = start
    · -- improving the start entry is impossible with positive costs
      exfalso
      obtain ⟨hsnq, hsnc⟩ := hF.2.1 _ sn hd
      have hz := (hF.1 sn hsnq).2.2.2.2 (by rw [hsnc, hcs])
      have hc0 : (0 : Rat) ≤ c.pathCost := hcost ▸ chainCost_nonneg hpos hchain
      have hsc : (0 : Rat) < s.cost := hpos _ s hs
      rw [hz] at hlt
      linarith
    · refine FInv_add hF (r := ⟨c.pathCost + s.cost, sn.heuristic, s, c.path ++ [s]⟩)
        (Chain.append_edge hchain hs) ?_ ?_ ?_ ?_ ?_
      · show c.pathCost + s.cost = chainCost (c.path ++ [s])
        rw [chainCost_append, chainCost_cons, chainCost_nil, hcost]
        ring
      · show sn.heuristic = hf start h s.child
        obtain ⟨hsnq, hsnc⟩ := hF.2.1 _ sn hd
        have := (hF.1 sn hsnq).2.2.1
        rw [this, hsnc]
      · show ∀ t ∈ (c.path ++ [s]).dropLast, goal t.child = false
        rw [List.dropLast_concat]
        exact fun t ht => hng t ht
      · exact fun he => absurd he hcs
      · exact hF.2.2.2.2 _ sn hd
  · exact hF

theorem improvePhase_FInv {Node : Type} [DecidableEq Node] {g : AGraph Node Rat}
    {start : Node} {goal : Node → Bool} {h : Node → Rat}
    (hpos : ∀ n : Node, ∀ s ∈ g.successors n, (0 : Rat) < s.cost)
    {fr : Frontier Node Rat} {disc : List Node}
    (hF : FInv g start goal h fr disc)
    {c : SearchNode Node Rat}
    (hchain : Chain g start c.path c.node.child)
    (hcost : c.pathCost = chainCost c.path)
    (hng : ∀ t ∈ c.path, goal t.child = false)
    {l : List (Successor Node Rat)} (hl : ∀ s ∈ l, s ∈ g.successors c.node.child) :
    FInv g start goal h (improvePhase c l fr) disc := by
  induction l generalizing fr with
  | nil => exact hF
  | cons x xs ih =>
    exact ih (improveStep_FInv hpos hF hchain hcost hng (hl x (List.mem_cons_self _ _)))
      (fun s hs => hl s (List.mem_cons_of_mem _ hs))

theorem addStep_FInv {Node : Type} [DecidableEq Node] {g : AGraph Node Rat}
    {start : Node} {goal : Node → Bool} {h : Node → Rat}
    {fr : Frontier Node Rat} {disc : List Node}
    (hF : FInv g start goal h fr disc)
    {c : SearchNode Node Rat}
    (hchain : Chain g start c.path c.node.child)
    (hcost : c.pathCost = chainCost c.path)
    (hng : ∀ t ∈ c.path, goal t.child = false)
    {s : Successor Node Rat} (hs : s ∈ g.successors c.node.child)
    (hcd : s.child ∈ disc) (hcs : s.child ≠ start) :
    FInv g start goal h (addStep c h fr s) disc := by
  refine FInv_add hF (r := ⟨c.pathCost + s.cost, h s.child, s, c.path ++ [s]⟩)
    (Chain.append_edge hchain hs) ?_ ?_ ?_ ?_ hcd
  · show c.pathCost + s.cost = chainCost (c.path ++ [s])
    rw [chainCost_append, chainCost_cons, chainCost_nil, hcost]
    ring
  · show h s.child = hf start h s.child
    unfold hf
    rw [if_neg hcs]
  · show ∀ t ∈ (c.path ++ [s]).dropLast, goal t.child = false
    rw [List.dropLast_concat]
    exact fun t ht => hng t ht
  · exact fun he => absurd he hcs

theorem addPhase_FInv {Node : Type} [DecidableEq Node] {g : AGraph Node Rat}
    {start : Node} {goal : Node → Bool} {h : Node → Rat}
    {fr : Frontier Node Rat} {disc : List Node}
    (hF : FInv g start goal h fr disc)
    {c : SearchNode Node Rat}
    (hchain : Chain g start c.path c.node.child)
    (hcost : c.pathCost = chainCost c.path)
    (hng : ∀ t ∈ c.path, goal t.child = false)
    {l : List (Successor Node Rat)}
    (hl : ∀ s ∈ l, s ∈ g.successors c.node.child ∧ s.child ∈ disc ∧ s.child ≠ start) :
    FInv g start goal h (addPhase c h l fr) disc := by
  induction l generalizing fr with
  | nil => exact hF
  | cons x xs ih =>
    obtain ⟨hx1, hx2, hx3⟩ := hl x (List.mem_cons_self _ _)
    exact ih (addStep_FInv hF hchain hcost hng hx1 hx2 hx3)
      (fun s hs => hl s (List.mem_cons_of_mem _ hs))


theorem unvisitedOf_mem {Node : Type} [DecidableEq Node] {disc : List Node}
    {succs : List (Successor Node Rat)} {s : Successor Node Rat} :
    s ∈ unvisitedOf disc succs ↔ s ∈ succs ∧ s.child ∉ disc := by
  simp [unvisitedOf, List.mem_filter]

theorem insertNode_sub {Node : Type} [DecidableEq Node] {d : List Node} {u : Node}
    (hu : u ∈ d) (x : Node) : u ∈ insertNode d x := by
  unfold insertNode
  split
  · exact hu
  · exact List.mem_append_left _ hu

theorem insertNode_self {Node : Type} [DecidableEq Node] (d : List Node) (x : Node) :
    x ∈ insertNode d x := by
  unfold insertNode
  split
  · assumption
  · exact List.mem_append_right _ (List.mem_singleton_self _)

theorem foldl_insertNode_sub {Node C : Type} [DecidableEq Node]
    {l : List (Successor Node C)} {d : List Node} {u : Node} (hu : u ∈ d) :
    u ∈ l.foldl (fun d s => insertNode d s.child) d := by
  induction l generalizing d with
  | nil => exact hu
  | cons x xs ih => exact ih (insertNode_sub hu _)

theorem foldl_insertNode_mem {Node C : Type} [DecidableEq Node]
    {l : List (Successor Node C)} {d : List Node} {s : Successor Node C} (hs : s ∈ l) :
    s.child ∈ l.foldl (fun d s => insertNode d s.child) d := by
  induction l generalizing d with
  | nil => cases hs
  | cons x xs ih =>
    rcases List.mem_cons.mp hs with rfl | hs'
    · show s.child ∈ xs.foldl (fun d t => insertNode d t.child) (insertNode d s.child)
      exact foldl_insertNode_sub (insertNode_self _ _)
    · exact ih hs'

theorem foldl_insertNode_cases {Node C : Type} [DecidableEq Node]
    {l : List (Successor Node C)} {d : List Node} {u : Node}
    (hu : u ∈ l.foldl (fun d s => insertNode d s.child) d) :
    u ∈ d ∨ ∃ s ∈ l, s.child = u := by
  induction l generalizing d with
  | nil => exact Or.inl hu
  | cons x xs ih =>
    rcases ih hu with hu' | ⟨s, hs, hsc⟩
    · have hu2 : u ∈ insertNode d x.child := hu'
      unfold insertNode at hu2
      by_cases hxd : x.child ∈ d
      · rw [if_pos hxd] at hu2
        exact Or.inl hu2
      · rw [if_neg hxd] at hu2
        rcases List.mem_append.mp hu2 with hd | hx
        · exact Or.inl hd
        · exact Or.inr ⟨x, List.mem_cons_self _ _, (List.mem_singleton.mp hx).symm⟩
    · exact Or.inr ⟨s, List.mem_cons_of_mem _ hs, hsc⟩

theorem discoveredUpdate_sub {Node : Type} [DecidableEq Node] {disc : List Node}
    {succs : List (Successor Node Rat)} {u : Node} (hu : u ∈ disc) :
    u ∈ discoveredUpdate disc succs :=
  foldl_insertNode_sub hu

theorem discoveredUpdate_mem_child {Node : Type} [DecidableEq Node] {disc : List Node}
    {succs : List (Successor Node Rat)} {s : Successor Node Rat} (hs : s ∈ succs) :
    s.child ∈ discoveredUpdate disc succs := by
  by_cases hd : s.child ∈ disc
  · exact discoveredUpdate_sub hd
  · exact foldl_insertNode_mem (unvisitedOf_mem.mpr ⟨hs, hd⟩)

theorem discoveredUpdate_cases {Node : Type} [DecidableEq Node] {disc : List Node}
    {succs : List (Successor Node Rat)} {u : Node}
    (hu : u ∈ discoveredUpdate disc succs) :
    u ∈ disc ∨ ∃ s ∈ unvisitedOf disc succs, s.child = u :=
  foldl_insertNode_cases hu


/-- One full expansion of `aStarGo` preserves the loop invariant. -/
theorem AInv_step {Node : Type} [DecidableEq Node] {g : AGraph Node Rat}
    {start : Node} {goal : Node → Bool} {h : Node → Rat}
    (hpos : ∀ n : Node, ∀ s ∈ g.successors n, (0 : Rat) < s.cost)
    (hnn : ∀ n : Node, 0 ≤ h n)
    (hcons : ∀ n : Node, ∀ s ∈ g.successors n, h n ≤ s.cost + h s.child)
    {fr : Frontier Node Rat} {disc : List Node}
    (hA : AInv g start goal h fr disc)
    {cur : SearchNode Node Rat} {fr1 fr2 fr3 : Frontier Node Rat}
    {disc2 : List Node}
    (hdq : fr.dequeue = some (cur, fr1))
    (hgoal : goal cur.node.child = false)
    (hfr2 : fr2 = improvePhase cur (g.successors cur.node.child) fr1)
    (hfr3 : fr3 = addPhase cur h (unvisitedOf disc (g.successors cur.node.child)) fr2)
    (hdisc2 : disc2 = discoveredUpdate disc (g.successors cur.node.child)) :
    AInv g start goal h fr3 disc2 := by
  obtain ⟨hFi, hstart, hng, hclosure⟩ := hA
  obtain ⟨hcurq, hperm, hd1, hF1⟩ := FInv_dequeue hFi hdq
  obtain ⟨hcchain, hccost, hcheur, hcng, hcsz⟩ := hFi.1 cur hcurq
  have hallng : ∀ t ∈ cur.path, goal t.child = false := by
    intro t ht
    rcases Chain.mem_split hcchain t ht with hdl | hce
    · exact hcng t hdl
    · rw [hce]; exact hgoal
  have hcurdisc : cur.node.child ∈ disc := hFi.2.2.2.1 cur hcurq
  have hdnodup : (fr.dict.map Prod.fst).Nodup := hFi.2.2.1
  have hsub2 : ∀ u ∈ disc, u ∈ discoveredUpdate disc (g.successors cur.node.child) :=
    fun u hu => discoveredUpdate_sub hu
  have hF2 : FInv g start goal h fr2 disc := by
    rw [hfr2]
    exact improvePhase_FInv hpos hF1 hcchain hccost hallng (fun s hs => hs)
  have hunv : ∀ s ∈ unvisitedOf disc (g.successors cur.node.child),
      s ∈ g.successors cur.node.child
        ∧ s.child ∈ discoveredUpdate disc (g.successors cur.node.child)
        ∧ s.child ≠ start := by
    intro s hs
    obtain ⟨hs1, hs2⟩ := unvisitedOf_mem.mp hs
    exact ⟨hs1, discoveredUpdate_mem_child hs1, fun he => hs2 (he ▸ hstart)⟩
  have hF3 : FInv g start goal h fr3 disc2 := by
    rw [hfr3, hdisc2]
    exact addPhase_FInv (FInv_mono_disc hsub2 hF2) hcchain hccost hallng hunv
  have hfr1none_cur : dictGet fr1.dict cur.node.child = none := by
    rw [hd1]
    exact dictGet_dictRemove_self hdnodup _
  have hfwd1 : ∀ k, dictGet fr.dict k = none → dictGet fr1.dict k = none := by
    intro k hk
    by_cases hkc : k = cur.node.child
    · rw [hkc]; exact hfr1none_cur
    · rw [hd1, dictGet_dictRemove_ne _ _ _ hkc]
      exact hk
  have hfwd3 : ∀ k ∈ disc, dictGet fr1.dict k = none → dictGet fr3.dict k = none := by
    intro k hk h1
    rw [hfr3, addPhase_dict_other (fun s hs he => (unvisitedOf_mem.mp hs).2 (he ▸ hk)), hfr2]
    exact improvePhase_dict_none h1
  have hback3 : ∀ k ∈ disc, dictGet fr3.dict k = none → dictGet fr1.dict k = none := by
    intro k hk h3
    rw [hfr3, addPhase_dict_other (fun s hs he => (unvisitedOf_mem.mp hs).2 (he ▸ hk)), hfr2] at h3
    exact improvePhase_dict_none_back h3
  refine ⟨hF3, hdisc2 ▸ hsub2 _ hstart, ?_, ?_⟩
  · -- no goal among expanded nodes
    intro u hu hnone
    rcases discoveredUpdate_cases (hdisc2 ▸ hu) with hud | ⟨s, hs, hsc⟩
    · have h1 : dictGet fr1.dict u = none := hback3 u hud hnone
      by_cases hkc : u = cur.node.child
      · rw [hkc]; exact hgoal
      · rw [hd1, dictGet_dictRemove_ne _ _ _ hkc] at h1
        exact hng u hud h1
    · exfalso
      have hsome := @addPhase_dict_isSome_of_mem _ _ cur h _ fr2 _ hs
      rw [← hfr3, hsc, hnone] at hsome
      cases hsome
  · -- expansion closure
    intro u hu hnone s hs
    rcases discoveredUpdate_cases (hdisc2 ▸ hu) with hud | ⟨t, ht, htc⟩
    · have h1 : dictGet fr1.dict u = none := hback3 u hud hnone
      by_cases hufr : dictGet fr.dict u = none
      · -- previously expanded node: transport the old closure facts
        obtain ⟨hcd, hdisj⟩ := hclosure u hud hufr s hs
        refine ⟨hdisc2 ▸ hsub2 _ hcd, ?_⟩
        rcases hdisj with hnone' | ⟨r, hrq, hrc, hbound⟩
        · exact Or.inl (hfwd3 _ hcd (hfwd1 _ hnone'))
        · have hrmem : r ∈ cur :: fr1.queue := hperm.mem_iff.mp hrq
          rcases List.mem_cons.mp hrmem with rfl | hr1q
          · refine Or.inl ?_
            rw [← hrc]
            exact hfwd3 _ hcurdisc hfr1none_cur
          · refine Or.inr ⟨r, ?_, hrc, hbound⟩
            rw [hfr3, hfr2]
            exact addPhase_queue_sub (improvePhase_queue_sub hr1q)
      · -- the node expanded by this step
        have hueq : u = cur.node.child := by
          by_contra hne
          rw [hd1, dictGet_dictRemove_ne _ _ _ hne] at h1
          exact hufr h1
        have hopt : ∀ p, Chain g start p u → cur.pathCost ≤ chainCost p := by
          intro p hp
          have hple := popped_le hnn hcons ⟨hFi, hstart, hng, hclosure⟩ hdq hp
            (fun hc => hufr hc.2)
          rw [← hueq] at hple
          by_cases hus : u = start
          · have hz : cur.pathCost = 0 := hcsz (by rw [← hueq, hus])
            have hc0 : 0 ≤ chainCost p := chainCost_nonneg hpos hp
            linarith
          · unfold hf at hple
            rw [if_neg hus] at hple
            linarith
        have hs' : s ∈ g.successors cur.node.child := by rw [← hueq]; exact hs
        refine ⟨hdisc2 ▸ discoveredUpdate_mem_child hs', ?_⟩
        by_cases hscd : s.child ∈ disc
        · rcases h1s : dictGet fr1.dict s.child with _ | sn
          · exact Or.inl (hfwd3 _ hscd h1s)
          · obtain ⟨r2, hr2, hle2⟩ :=
              improvePhase_relax (c := cur) (l := g.successors cur.node.child) hs' h1s
            have h3 : dictGet fr3.dict s.child = some r2 := by
              rw [hfr3,
                addPhase_dict_other (fun t' ht' he => (unvisitedOf_mem.mp ht').2 (he ▸ hscd)),
                hfr2]
              exact hr2
            obtain ⟨hr2q, hr2c⟩ := hF3.2.1 _ r2 h3
            refine Or.inr ⟨r2, hr2q, hr2c, ?_⟩
            intro p hp
            have := hopt p hp
            linarith
        · have hsu : s ∈ unvisitedOf disc (g.successors cur.node.child) :=
            unvisitedOf_mem.mpr ⟨hs', hscd⟩
          refine Or.inr ⟨⟨cur.pathCost + s.cost, h s.child, s, cur.path ++ [s]⟩, ?_, rfl, ?_⟩
          · rw [hfr3]
            exact addPhase_pushes hsu
          · intro p hp
            have := hopt p hp
            show cur.pathCost + s.cost ≤ chainCost p + s.cost
            linarith
    · exfalso
      have hsome := @addPhase_dict_isSome_of_mem _ _ cur h _ fr2 _ ht
      rw [← hfr3, htc, hnone] at hsome
      cases hsome


theorem aStarGo_succ_none {Node : Type} [DecidableEq Node]
    {g : AGraph Node Rat} {goal : Node → Bool} {h : Node → Rat} {failCost : Rat}
    {fuel : Nat} {fr : Frontier Node Rat} {disc : List Node}
    (hdq : fr.dequeue = none) :
    aStarGo g goal h failCost (fuel + 1) fr disc
      = ⟨.failure, [], failCost, disc.length⟩ := by
  unfold aStarGo
  rw [hdq]

theorem aStarGo_succ_some {Node : Type} [DecidableEq Node]
    {g : AGraph Node Rat} {goal : Node → Bool} {h : Node → Rat} {failCost : Rat}
    {fuel : Nat} {fr : Frontier Node Rat} {disc : List Node}
    {cur : SearchNode Node Rat} {fr1 : Frontier Node Rat}
    (hdq : fr.dequeue = some (cur, fr1)) :
    aStarGo g goal h failCost (fuel + 1) fr disc
      = if goal cur.node.child then
          ⟨.success, cur.path, cur.pathCost, disc.length⟩
        else
          aStarGo g goal h failCost fuel
            (addPhase cur h (unvisitedOf disc (g.successors cur.node.child))
              (improvePhase cur (g.successors cur.node.child) fr1))
            (discoveredUpdate disc (g.successors cur.node.child)) := by
  conv_lhs => unfold aStarGo
  rw [hdq]

/-- Soundness and optimality of the main loop under the invariant. -/
theorem aStarGo_sound {Node : Type} [DecidableEq Node] {g : AGraph Node Rat}
    {start : Node} {goal : Node → Bool} {h : Node → Rat} {failCost : Rat}
    (hpos : ∀ n : Node, ∀ s ∈ g.successors n, (0 : Rat) < s.cost)
    (hnn : ∀ n : Node, 0 ≤ h n)
    (hcons : ∀ n : Node, ∀ s ∈ g.successors n, h n ≤ s.cost + h s.child)
    (hgoal0 : ∀ v : Node, goal v = true → h v = 0) :
    ∀ (fuel : Nat) {fr : Frontier Node Rat} {disc : List Node}
      {res : SearchResult Node Rat},
      AInv g start goal h fr disc →
      aStarGo g goal h failCost fuel fr disc = res →
      res.status = .success →
      ∃ w, Chain g start res.path w ∧ goal w = true
        ∧ (∀ t ∈ res.path.dropLast, goal t.child = false)
        ∧ res.cost = chainCost res.path
        ∧ ∀ (p : List (Successor Node Rat)) (v : Node),
            Chain g start p v → goal v = true → res.cost ≤ chainCost p := by
  intro fuel
  induction fuel with
  | zero =>
    intro fr disc res _ hgo hs
    rw [← hgo] at hs
    cases hs
  | succ fuel ih =>
    intro fr disc res hA hgo hs
    rcases hdq : fr.dequeue with _ | ⟨cur, fr1⟩
    · rw [aStarGo_succ_none hdq] at hgo
      rw [← hgo] at hs
      cases hs
    · rw [aStarGo_succ_some hdq] at hgo
      by_cases hg : goal cur.node.child = true
      · rw [if_pos hg] at hgo
        subst hgo
        obtain ⟨hFi, hstart, hng, hclosure⟩ := hA
        obtain ⟨hcurq, hperm, hd1, hF1⟩ := FInv_dequeue hFi hdq
        obtain ⟨hcchain, hccost, hcheur, hcng, hcsz⟩ := hFi.1 cur hcurq
        refine ⟨cur.node.child, hcchain, hg, hcng, hccost, ?_⟩
        intro p v hp hv
        have hnE : ¬(v ∈ disc ∧ dictGet fr.dict v = none) := by
          rintro ⟨hv1, hv2⟩
          rw [hng v hv1 hv2] at hv
          cases hv
        have hple := popped_le hnn hcons ⟨hFi, hstart, hng, hclosure⟩ hdq hp hnE
        have hhv : h v = 0 := hgoal0 v hv
        have hhf0 : 0 ≤ hf start h cur.node.child := by
          unfold hf
          split
          · exact le_refl _
          · exact hnn _
        show cur.pathCost ≤ chainCost p
        linarith
      · rw [if_neg hg] at hgo
        exact ih (AInv_step hpos hnn hcons hA hdq (Bool.not_eq_true _ ▸ hg : goal cur.node.child = false) rfl rfl rfl) hgo hs

/-- The invariant holds for the initial frontier of `aStarSearch`. -/
theorem AInv_init {Node : Type} [DecidableEq Node] {g : AGraph Node Rat}
    {start : Node} {goal : Node → Bool} {h : Node → Rat} :
    AInv g start goal h
      ⟨[⟨0, 0, ⟨"", start, 0⟩, []⟩], [(start, ⟨0, 0, ⟨"", start, 0⟩, []⟩)]⟩
      [start] := by
  have hget : ∀ (k : Node) (r : SearchNode Node Rat),
      dictGet [(start, (⟨0, 0, ⟨"", start, 0⟩, []⟩ : SearchNode Node Rat))] k = some r
        → k = start ∧ r = ⟨0, 0, ⟨"", start, 0⟩, []⟩ := by
    intro k r hk
    unfold dictGet at hk
    by_cases hks : start = k
    · subst hks
      simp [List.find?] at hk
      exact ⟨rfl, hk.symm⟩
    · simp [List.find?, hks] at hk
  refine ⟨⟨?_, ?_, ?_, ?_, ?_⟩, ?_, ?_, ?_⟩
  · intro r hr
    rw [List.mem_singleton.mp hr]
    refine ⟨Chain.nil start, rfl, ?_, ?_, fun _ => rfl⟩
    · show (0 : Rat) = hf start h start
      unfold hf
      rw [if_pos rfl]
    · intro t ht
      cases ht
  · intro k r hk
    obtain ⟨hk1, hk2⟩ := hget k r hk
    rw [hk1, hk2]
    exact ⟨List.mem_singleton_self _, rfl⟩
  · simp
  · intro r hr
    rw [List.mem_singleton.mp hr]
    exact List.mem_singleton_self _
  · intro k r hk
    rw [(hget k r hk).1]
    exact List.mem_singleton_self _
  · exact List.mem_singleton_self _
  · intro u hu hnone
    rw [List.mem_singleton.mp hu] at hnone
    unfold dictGet at hnone
    simp [List.find?] at hnone
  · intro u hu hnone
    rw [List.mem_singleton.mp hu] at hnone
    unfold dictGet at hnone
    simp [List.find?] at hnone


/-- C5: when `aStarSearch` returns with status success, the returned path is a
genuine edge path of the graph from the start whose endpoint satisfies the goal
test and whose interior nodes do not (the search stopped at the first goal
dequeue; the path excludes the start node, being a list of traversed edges),
the returned cost is the sum of the returned path's edge costs, and for
positive edge costs and a non-negative consistent heuristic vanishing on goal
nodes the returned cost is minimal over all start-to-goal edge paths. -/
theorem C5_astar_success_sound_optimal {Node : Type} [DecidableEq Node]
    (g : AGraph Node Rat) (start : Node) (goal : Node → Bool) (h : Node → Rat)
    (failCost : Rat) (fuel : Nat)
    (hpos : ∀ n : Node, ∀ s ∈ g.successors n, (0 : Rat) < s.cost)
    (hnn : ∀ n : Node, 0 ≤ h n)
    (hcons : ∀ n : Node, ∀ s ∈ g.successors n, h n ≤ s.cost + h s.child)
    (hgoal0 : ∀ v : Node, goal v = true → h v = 0)
    (hsucc : (aStarSearch g start goal h failCost fuel).status = .success) :
    ∃ w, Chain g start (aStarSearch g start goal h failCost fuel).path w
      ∧ goal w = true
      ∧ (∀ t ∈ (aStarSearch g start goal h failCost fuel).path.dropLast,
          goal t.child = false)
      ∧ (aStarSearch g start goal h failCost fuel).cost
          = chainCost (aStarSearch g start goal h failCost fuel).path
      ∧ ∀ (p : List (Successor Node Rat)) (v : Node),
          Chain g start p v → goal v = true →
          (aStarSearch g start goal h failCost fuel).cost ≤ chainCost p :=
  aStarGo_sound hpos hnn hcons hgoal0 fuel AInv_init rfl hsucc

/-- Closed instance of the C5 theorem on a concrete two-node graph. -/
theorem C5_astar_success_sound_optimal_witness :
    ((∀ n : Bool, ∀ s ∈ exAGraph.successors n, (0 : Rat) < s.cost)
      ∧ (∀ n : Bool, (0 : Rat) ≤ (fun _ : Bool => (0 : Rat)) n)
      ∧ (∀ n : Bool, ∀ s ∈ exAGraph.successors n,
          (fun _ : Bool => (0 : Rat)) n ≤ s.cost + (fun _ : Bool => (0 : Rat)) s.child)
      ∧ (∀ v : Bool, (fun v : Bool => v) v = true → (fun _ : Bool => (0 : Rat)) v = 0)
      ∧ (aStarSearch exAGraph false (fun v : Bool => v) (fun _ : Bool => (0 : Rat))
          0 5).status = .success)
    ∧ ∃ w, Chain exAGraph false
        (aStarSearch exAGraph false (fun v : Bool => v) (fun _ : Bool => (0 : Rat))
          0 5).path w
      ∧ (fun v : Bool => v) w = true
      ∧ (∀ t ∈ (aStarSearch exAGraph false (fun v : Bool => v)
            (fun _ : Bool => (0 : Rat)) 0 5).path.dropLast, (fun v : Bool => v) t.child = false)
      ∧ (aStarSearch exAGraph false (fun v : Bool => v) (fun _ : Bool => (0 : Rat))
          0 5).cost
          = chainCost (aStarSearch exAGraph false (fun v : Bool => v)
              (fun _ : Bool => (0 : Rat)) 0 5).path
      ∧ ∀ (p : List (Successor Bool Rat)) (v : Bool),
          Chain exAGraph false p v → (fun v : Bool => v) v = true →
          (aStarSearch exAGraph false (fun v : Bool => v) (fun _ : Bool => (0 : Rat))
            0 5).cost ≤ chainCost p :=
  ⟨⟨by decide, by decide, (by
      intro n s hs
      cases n
      · simp [exAGraph] at hs
        rw [hs]
        norm_num
      · simp [exAGraph] at hs), by decide, by decide⟩,
    C5_astar_success_sound_optimal exAGraph false (fun v : Bool => v)
      (fun _ : Bool => (0 : Rat)) 0 5
      (by decide) (by decide) (by
      intro n s hs
      cases n
      · simp [exAGraph] at hs
        rw [hs]
        norm_num
      · simp [exAGraph] at hs) (by decide) (by decide)⟩


theorem keepLiteral_eq_false {l : Literal} :
    keepLiteral l = false ↔ l.args.length = 2 ∧ l.args.getD 0 "" = l.args.getD 1 "" := by
  simp [keepLiteral, Decidable.not_not]

/-- C6 counterexample: a conjunction holding both the self-referential literal
ontop(a, a) and the literal ontop(a, b) is not filtered out of the formula; it
survives with only its self-referential literal removed. -/
theorem C6_counterexample :
    (keepLiteral ⟨.ontop, ["a", "a"]⟩ = false
      ∧ (⟨.ontop, ["a", "a"]⟩ : Literal).args.length = 2
      ∧ (⟨.ontop, ["a", "a"]⟩ : Literal).args.getD 0 ""
          = (⟨.ontop, ["a", "a"]⟩ : Literal).args.getD 1 "")
    ∧ interpretCommandFilter
        ⟨[⟨[⟨.ontop, ["a", "a"]⟩, ⟨.ontop, ["a", "b"]⟩]⟩]⟩
      = Except.ok ⟨[⟨[⟨.ontop, ["a", "b"]⟩]⟩]⟩ := by
  exact ⟨⟨by decide, rfl, rfl⟩, rfl⟩

/-- C6 (amended): the interpreter's final filter removes every
self-referential literal from every conjunction; a conjunction is dropped from
the formula only when all of its literals were self-referential, and the
command is rejected exactly when every conjunction dies this way.  In
particular no conjunction of the planner's formula contains a
self-referential literal. -/
theorem C6_self_literal_filter (f f' : DNFFormula)
    (hok : interpretCommandFilter f = Except.ok f') :
    (∀ c' ∈ f'.conjuncts, c'.literals ≠ []
       ∧ ∀ l ∈ c'.literals,
           ¬(l.args.length = 2 ∧ l.args.getD 0 "" = l.args.getD 1 ""))
    ∧ (∀ c' ∈ f'.conjuncts, ∃ c ∈ f.conjuncts,
         c'.literals = c.literals.filter keepLiteral)
    ∧ (∀ c ∈ f.conjuncts, c.literals.filter keepLiteral ≠ [] →
         (⟨c.literals.filter keepLiteral⟩ : Conjunction) ∈ f'.conjuncts)
    ∧ (∀ g : DNFFormula,
         interpretCommandFilter g = Except.error "Can not interpret command"
           ↔ ∀ c ∈ g.conjuncts, c.literals.filter keepLiteral = []) := by
  have hmm : ∀ c : Conjunction,
      filterConjunction c = none ↔ c.literals.filter keepLiteral = [] := by
    intro c
    unfold filterConjunction
    split
    · next hgt =>
      simp only [gt_iff_lt, List.length_pos] at hgt
      simp [hgt]
    · next hgt =>
      simp only [gt_iff_lt, List.length_pos, not_not] at hgt
      simp [hgt]
  unfold interpretCommandFilter at hok
  split at hok
  · cases hok
  · next hne =>
    injection hok with hok
    subst hok
    refine ⟨?_, ?_, ?_, ?_⟩
    · intro c' hc'
      obtain ⟨c, hc, hfn⟩ := List.mem_filterMap.mp hc'
      unfold filterConjunction at hfn
      split at hfn
      · next hgt =>
        injection hfn with hfn
        subst hfn
        refine ⟨by simpa using List.length_pos.mp hgt, ?_⟩
        intro l hl hcontra
        have hkeep : keepLiteral l = true := List.of_mem_filter hl
        rw [keepLiteral_eq_false.mpr hcontra] at hkeep
        cases hkeep
      · cases hfn
    · intro c' hc'
      obtain ⟨c, hc, hfn⟩ := List.mem_filterMap.mp hc'
      unfold filterConjunction at hfn
      split at hfn
      · injection hfn with hfn
        subst hfn
        exact ⟨c, hc, rfl⟩
      · cases hfn
    · intro c hc hne'
      refine List.mem_filterMap.mpr ⟨c, hc, ?_⟩
      unfold filterConjunction
      rw [if_pos (List.length_pos.mpr hne')]
    · intro g
      unfold interpretCommandFilter
      split
      · next hz =>
        simp only [List.length_eq_zero] at hz
        have := List.filterMap_eq_nil.mp hz
        constructor
        · intro _ c hc
          exact (hmm c).mp (this c hc)
        · intro _
          rfl
      · next hz =>
        simp only [List.length_eq_zero] at hz
        constructor
        · intro hcontra
          cases hcontra
        · intro hall
          exfalso
          refine hz (List.filterMap_eq_nil.mpr ?_)
          intro c hc
          exact (hmm c).mpr (hall c hc)

/-- Closed instance of the C6 theorem. -/
theorem C6_self_literal_filter_witness :
    interpretCommandFilter ⟨[⟨[⟨.inside, ["x", "x"]⟩]⟩, ⟨[⟨.leftof, ["x", "y"]⟩]⟩]⟩
        = Except.ok ⟨[⟨[⟨.leftof, ["x", "y"]⟩]⟩]⟩
    ∧ ((∀ c' ∈ (⟨[⟨[⟨.leftof, ["x", "y"]⟩]⟩]⟩ : DNFFormula).conjuncts, c'.literals ≠ []
       ∧ ∀ l ∈ c'.literals,
           ¬(l.args.length = 2 ∧ l.args.getD 0 "" = l.args.getD 1 ""))
    ∧ (∀ c' ∈ (⟨[⟨[⟨.leftof, ["x", "y"]⟩]⟩]⟩ : DNFFormula).conjuncts,
         ∃ c ∈ (⟨[⟨[⟨.inside, ["x", "x"]⟩]⟩, ⟨[⟨.leftof, ["x", "y"]⟩]⟩]⟩ : DNFFormula).conjuncts,
         c'.literals = c.literals.filter keepLiteral)
    ∧ (∀ c ∈ (⟨[⟨[⟨.inside, ["x", "x"]⟩]⟩, ⟨[⟨.leftof, ["x", "y"]⟩]⟩]⟩ : DNFFormula).conjuncts,
         c.literals.filter keepLiteral ≠ [] →
         (⟨c.literals.filter keepLiteral⟩ : Conjunction)
            ∈ (⟨[⟨[⟨.leftof, ["x", "y"]⟩]⟩]⟩ : DNFFormula).conjuncts)
    ∧ (∀ g : DNFFormula,
         interpretCommandFilter g = Except.error "Can not interpret command"
           ↔ ∀ c ∈ g.conjuncts, c.literals.filter keepLiteral = [])) :=
  ⟨rfl,
    C6_self_literal_filter
      ⟨[⟨[⟨.inside, ["x", "x"]⟩]⟩, ⟨[⟨.leftof, ["x", "y"]⟩]⟩]⟩
      ⟨[⟨[⟨.leftof, ["x", "y"]⟩]⟩]⟩ rfl⟩


theorem filterMap_some_of {α : Type} (f : α → Option α) (l : List α)
    (h : ∀ x ∈ l, f x = some x) : l.filterMap f = l := by
  induction l with
  | nil => rfl
  | cons x xs ih =>
    rw [List.filterMap_cons, h x (List.mem_cons_self _ _),
      ih (fun y hy => h y (List.mem_cons_of_mem _ hy))]

theorem filterMap_ext {α β : Type} (f g : α → Option β) (l : List α)
    (h : ∀ x ∈ l, f x = g x) : l.filterMap f = l.filterMap g := by
  induction l with
  | nil => rfl
  | cons x xs ih =>
    rw [List.filterMap_cons, List.filterMap_cons, h x (List.mem_cons_self _ _),
      ih (fun y hy => h y (List.mem_cons_of_mem _ hy))]

theorem holding_literal_valid (w : World) (name : String) :
    isLiteralValid ⟨.holding, [name]⟩ w = !(name == "floor") := by
  by_cases hx : name = "floor"
  · subst hx
    simp [isLiteralValid]
  · simp [isLiteralValid, hx]

/-- C7 counterexample: the entity "the floor" (grammar rule
`entity --> "the" "floor"`) has the single candidate "floor", yet the take
command yields no conjunction holding(floor): the validity filter drops it,
the formula is empty and the command is rejected. -/
theorem C7_counterexample :
    (takeCommandDNF exWorld Junction.disjunction ["floor"]).conjuncts = []
    ∧ interpretCommandFilter (takeCommandDNF exWorld Junction.disjunction ["floor"])
        = Except.error "Can not interpret command" :=
  ⟨by decide, rfl⟩

/-- C7 (amended): interpreting a take command yields one conjunction
holding(e) per candidate e other than the floor (the validity filter drops
holding(floor)); an `all` entity with more than one candidate yields the empty
formula, which the zero-conjunction check then rejects with an interpretation
error, and in general the command is rejected exactly when no conjunction
remains; otherwise the formula passes the final filter unchanged. -/
theorem C7_take_command (w : World) (j : Junction) (cands : List String) :
    ((j = Junction.conjunction ∧ cands.length > 1) →
        takeCommandDNF w j cands = ⟨[]⟩
        ∧ interpretCommandFilter (takeCommandDNF w j cands)
            = Except.error "Can not interpret command")
    ∧ (¬(j = Junction.conjunction ∧ cands.length > 1) →
        (takeCommandDNF w j cands).conjuncts
          = cands.filterMap (fun e =>
              if e = "floor" then none else some ⟨[⟨.holding, [e]⟩]⟩))
    ∧ (interpretCommandFilter (takeCommandDNF w j cands)
          = Except.error "Can not interpret command"
        ↔ (takeCommandDNF w j cands).conjuncts = [])
    ∧ ((takeCommandDNF w j cands).conjuncts ≠ [] →
        interpretCommandFilter (takeCommandDNF w j cands)
          = Except.ok (takeCommandDNF w j cands)) := by
  have hshape : ∀ c ∈ (takeCommandDNF w j cands).conjuncts,
      filterConjunction c = some c := by
    intro c hc
    unfold takeCommandDNF at hc
    split at hc
    · cases hc
    · obtain ⟨e, he, hfe⟩ := List.mem_filterMap.mp hc
      split at hfe
      · injection hfe with hfe
        subst hfe
        rfl
      · cases hfe
  have hfix : (takeCommandDNF w j cands).conjuncts.filterMap filterConjunction
      = (takeCommandDNF w j cands).conjuncts := filterMap_some_of _ _ hshape
  refine ⟨?_, ?_, ?_, ?_⟩
  · rintro ⟨h1, h2⟩
    have he : takeCommandDNF w j cands = ⟨[]⟩ := by
      unfold takeCommandDNF
      rw [if_pos ⟨h1, h2⟩]
    exact ⟨he, by rw [he]; rfl⟩
  · intro hne
    unfold takeCommandDNF
    rw [if_neg hne]
    refine filterMap_ext _ _ cands ?_
    intro e he
    rw [holding_literal_valid]
    by_cases hx : e = "floor"
    · simp [hx]
    · simp [hx]
  · unfold interpretCommandFilter
    rw [hfix]
    split
    · next hz =>
      simp only [List.length_eq_zero] at hz
      simp [hz]
    · next hz =>
      simp only [List.length_eq_zero] at hz
      constructor
      · intro hcontra
        cases hcontra
      · intro hc
        exact absurd hc hz
  · intro hne
    unfold interpretCommandFilter
    rw [hfix]
    rw [if_neg (by simpa using hne)]

/-- Closed instance of the C7 theorem. -/
theorem C7_take_command_witness :
    ((takeCommandDNF exWorld Junction.disjunction ["lbr", "floor"]).conjuncts
        = [⟨[⟨Relation.holding, ["lbr"]⟩]⟩])
    ∧ ((takeCommandDNF exWorld Junction.disjunction ["lbr", "floor"]).conjuncts ≠ [])
    ∧ interpretCommandFilter (takeCommandDNF exWorld Junction.disjunction ["lbr", "floor"])
        = Except.ok (takeCommandDNF exWorld Junction.disjunction ["lbr", "floor"]) :=
  ⟨by decide, by decide,
    (C7_take_command exWorld Junction.disjunction ["lbr", "floor"]).2.2.2 (by decide)⟩


/-- C8: for the low-level state with stacks [["b"], ["a"]] and arm at column
0, the unfulfilled OnStack leaf for item "a" with goal predicate
"column = 0" evaluates its heuristic to the signed difference -1, not to the
non-negative column distance 1 the specification describes: the code maps the
valid columns to `stackId - itemId` without taking an absolute value. -/
theorem C8_onstack_heuristic_negative :
    onStackIsFulfilled "a" (fun sid => sid == 0) [["b"], ["a"]] = false
    ∧ onStackGetHeuristic "a" (fun sid => sid == 0) [["b"], ["a"]] 0
        = ((-1 : Int) : WithTop Int)
    ∧ specOnStackHeuristic "a" (fun sid => sid == 0) [["b"], ["a"]] 0
        = ((1 : Int) : WithTop Int)
    ∧ onStackGetHeuristic "a" (fun sid => sid == 0) [["b"], ["a"]] 0
        ≠ specOnStackHeuristic "a" (fun sid => sid == 0) [["b"], ["a"]] 0
    ∧ ¬(0 ≤ onStackGetHeuristic "a" (fun sid => sid == 0) [["b"], ["a"]] 0) := by
  refine ⟨rfl, rfl, rfl, ?_, ?_⟩ <;> decide


theorem getChildrenA_root_fulfilled {dnf : DNFFormula} {s : LowNode}
    (hsat : dnfGoalFulfilled s dnf = true) :
    getChildrenA dnf s GAddr.root false = [GAddr.final] := by
  rw [getChildrenA]
  simp [kindAt, preconditionK, hsat]

theorem successors_root_fulfilled {dnf : DNFFormula} {s : LowNode}
    {basicEval : GAddr → LowNode → EvalResult}
    (hsat : dnfGoalFulfilled s dnf = true) :
    (graphHighLevel dnf basicEval).successors (GAddr.root, s)
      = [⟨"", (GAddr.final, s), 1⟩] := by
  show (getChildrenA dnf s GAddr.root false).filterMap _ = _
  rw [getChildrenA_root_fulfilled hsat]
  rfl

/-- With the root goal already fulfilled, the outer search succeeds on its
second dequeue with the single skip edge produced by the final node. -/
theorem hl_search_when_fulfilled (dnf : DNFFormula) (s : LowNode)
    (basicEval : GAddr → LowNode → EvalResult) (k : Nat)
    (hsat : dnfGoalFulfilled s dnf = true) :
    aStarSearch (graphHighLevel dnf basicEval) (GAddr.root, s)
      goalTestHL (fun _ => 0) (-1) (k + 2)
      = ⟨.success, [⟨"", (GAddr.final, s), 1⟩], 0 + 1, 2⟩ := by
  have hne : (GAddr.final, s) ≠ (GAddr.root, s) := by
    intro hc
    cases hc
  unfold aStarSearch
  -- first iteration: dequeue the start record, expand the root
  have hdq1 : (⟨[⟨0, 0, ⟨"", (GAddr.root, s), 0⟩, []⟩],
      [((GAddr.root, s), ⟨0, 0, ⟨"", (GAddr.root, s), 0⟩, []⟩)]⟩ :
        Frontier (GAddr × LowNode) Rat).dequeue
      = some (⟨0, 0, ⟨"", (GAddr.root, s), 0⟩, []⟩,
          ⟨[], dictRemove [((GAddr.root, s), ⟨0, 0, ⟨"", (GAddr.root, s), 0⟩, []⟩)]
            (GAddr.root, s)⟩) := rfl
  rw [aStarGo_succ_some hdq1]
  rw [if_neg (by simp [goalTestHL])]
  rw [successors_root_fulfilled hsat]
  have hrm : dictRemove [((GAddr.root, s), (⟨0, 0, ⟨"", (GAddr.root, s), 0⟩, []⟩ :
      SearchNode (GAddr × LowNode) Rat))] (GAddr.root, s) = [] := by
    simp [dictRemove]
  have himp : improvePhase (⟨0, 0, ⟨"", (GAddr.root, s), 0⟩, []⟩ :
      SearchNode (GAddr × LowNode) Rat) [⟨"", (GAddr.final, s), 1⟩]
      ⟨[], dictRemove [((GAddr.root, s), ⟨0, 0, ⟨"", (GAddr.root, s), 0⟩, []⟩)]
        (GAddr.root, s)⟩
      = ⟨[], dictRemove [((GAddr.root, s), ⟨0, 0, ⟨"", (GAddr.root, s), 0⟩, []⟩)]
        (GAddr.root, s)⟩ := by
    show improveStep _ _ _ = _
    refine improveStep_eq_of_none ?_
    rw [hrm]
    rfl
  rw [himp]
  have hunv : unvisitedOf [(GAddr.root, s)]
      [(⟨"", (GAddr.final, s), 1⟩ : Successor (GAddr × LowNode) Rat)]
      = [⟨"", (GAddr.final, s), 1⟩] := by
    simp [unvisitedOf, hne]
  rw [hunv]
  have hadd : addPhase (⟨0, 0, ⟨"", (GAddr.root, s), 0⟩, []⟩ :
      SearchNode (GAddr × LowNode) Rat) (fun _ => 0) [⟨"", (GAddr.final, s), 1⟩]
      ⟨[], dictRemove [((GAddr.root, s), ⟨0, 0, ⟨"", (GAddr.root, s), 0⟩, []⟩)]
        (GAddr.root, s)⟩
      = ⟨[⟨0 + 1, 0, ⟨"", (GAddr.final, s), 1⟩, [⟨"", (GAddr.final, s), 1⟩]⟩],
          dictSet (dictRemove [((GAddr.root, s), ⟨0, 0, ⟨"", (GAddr.root, s), 0⟩, []⟩)]
            (GAddr.root, s)) (GAddr.final, s)
            ⟨0 + 1, 0, ⟨"", (GAddr.final, s), 1⟩, [⟨"", (GAddr.final, s), 1⟩]⟩⟩ := by
    rw [hrm]
    rfl
  rw [hadd]
  have hdu : discoveredUpdate [(GAddr.root, s)]
      [(⟨"", (GAddr.final, s), 1⟩ : Successor (GAddr × LowNode) Rat)]
      = [(GAddr.root, s), (GAddr.final, s)] := by
    unfold discoveredUpdate
    rw [hunv]
    show insertNode [(GAddr.root, s)] (GAddr.final, s) = _
    unfold insertNode
    rw [if_neg (by simp [hne])]
    rfl
  rw [hdu]
  -- second iteration: dequeue the final-node record and succeed
  have hdq2 : (⟨[⟨0 + 1, 0, ⟨"", (GAddr.final, s), 1⟩, [⟨"", (GAddr.final, s), 1⟩]⟩],
      dictSet (dictRemove [((GAddr.root, s), ⟨0, 0, ⟨"", (GAddr.root, s), 0⟩, []⟩)]
        (GAddr.root, s)) (GAddr.final, s)
        ⟨0 + 1, 0, ⟨"", (GAddr.final, s), 1⟩, [⟨"", (GAddr.final, s), 1⟩]⟩⟩ :
        Frontier (GAddr × LowNode) Rat).dequeue
      = some (⟨0 + 1, 0, ⟨"", (GAddr.final, s), 1⟩, [⟨"", (GAddr.final, s), 1⟩]⟩,
          ⟨[], dictRemove (dictSet (dictRemove
            [((GAddr.root, s), ⟨0, 0, ⟨"", (GAddr.root, s), 0⟩, []⟩)] (GAddr.root, s))
            (GAddr.final, s)
            ⟨0 + 1, 0, ⟨"", (GAddr.final, s), 1⟩, [⟨"", (GAddr.final, s), 1⟩]⟩)
            (GAddr.final, s)⟩) := rfl
  rw [aStarGo_succ_some hdq2]
  rw [if_pos (by simp [goalTestHL])]
  rfl

/-- C9: for every DNF formula that builds a goal tree, every world whose
start state already fulfils some conjunction of the formula, every behaviour
of the low-level evaluation subsystem and any search budget of at least two
dequeues, the planner's output for the interpretation is the empty primitive
sequence: one empty action string and the `Path with 1 moves (2 visited
nodes)` annotation, containing none of the primitive tokens l, r, p, d. -/
theorem C9_already_true_no_primitives (dnf : DNFFormula) (w : World)
    (basicEval : GAddr → LowNode → EvalResult) (fuel : Nat)
    (hfuel : 2 ≤ fuel)
    (hok : firstBuildError dnf = none)
    (hsat : dnfGoalFulfilled (LowNode.fromWorld w) dnf = true) :
    planOne dnf w basicEval fuel
      = Except.ok ["", "Path with 1 moves (2 visited nodes)"]
    ∧ ∀ pl, planOne dnf w basicEval fuel = Except.ok pl →
        "l" ∉ pl ∧ "r" ∉ pl ∧ "p" ∉ pl ∧ "d" ∉ pl := by
  obtain ⟨k, rfl⟩ : ∃ k, fuel = k + 2 := ⟨fuel - 2, by omega⟩
  have hmain : planOne dnf w basicEval (k + 2)
      = Except.ok ["", "Path with 1 moves (2 visited nodes)"] := by
    have hsplit : ("" : String).splitOn ";" = [""] := by
      unfold String.splitOn
      rw [if_neg (by decide)]
      unfold String.splitOnAux
      rw [if_pos (by decide)]
      decide
    unfold planOne
    rw [hok]
    rw [hl_search_when_fulfilled dnf (LowNode.fromWorld w) basicEval k hsat]
    refine congrArg Except.ok ?_
    simp only [List.map_cons, List.map_nil, hsplit, List.foldl_cons, List.foldl_nil,
      List.length_cons, List.length_nil, List.nil_append]
    decide
  refine ⟨hmain, ?_⟩
  intro pl hpl
  rw [hmain] at hpl
  injection hpl with hpl
  subst hpl
  refine ⟨?_, ?_, ?_, ?_⟩ <;> decide


/-- Closed instance of the C9 theorem. -/
theorem C9_already_true_no_primitives_witness :
    ((2 : Nat) ≤ 2
      ∧ firstBuildError ⟨[⟨[⟨Relation.ontop, ["lbr", "floor"]⟩]⟩]⟩ = none
      ∧ dnfGoalFulfilled (LowNode.fromWorld exWorld)
          ⟨[⟨[⟨Relation.ontop, ["lbr", "floor"]⟩]⟩]⟩ = true)
    ∧ (planOne ⟨[⟨[⟨Relation.ontop, ["lbr", "floor"]⟩]⟩]⟩ exWorld
          (fun _ _ => evaluateSkipR) 2
        = Except.ok ["", "Path with 1 moves (2 visited nodes)"]
      ∧ ∀ pl, planOne ⟨[⟨[⟨Relation.ontop, ["lbr", "floor"]⟩]⟩]⟩ exWorld
            (fun _ _ => evaluateSkipR) 2 = Except.ok pl →
          "l" ∉ pl ∧ "r" ∉ pl ∧ "p" ∉ pl ∧ "d" ∉ pl) :=
  ⟨⟨by decide, by decide, by decide⟩,
    C9_already_true_no_primitives ⟨[⟨[⟨Relation.ontop, ["lbr", "floor"]⟩]⟩]⟩ exWorld
      (fun _ _ => evaluateSkipR) 2 (by decide) (by decide) (by decide)⟩


theorem digitVal_digitChar {m : Nat} (hm : m < 10) :
    digitVal (Nat.digitChar m) = m := by
  interval_cases m <;> decide

theorem toDigitsCore_decodeR :
    ∀ (f n : Nat) (l : List Char), n < f →
    ((Nat.toDigitsCore 10 f n l).foldr decStepR (0, 1)).1
      = n * (l.foldr decStepR (0, 1)).2 + (l.foldr decStepR (0, 1)).1 := by
  intro f
  induction f with
  | zero => intro n l hn; omega
  | succ f ih =>
    intro n l hn
    show ((if n / 10 = 0 then Nat.digitChar (n % 10) :: l
        else Nat.toDigitsCore 10 f (n / 10) (Nat.digitChar (n % 10) :: l)).foldr
          decStepR (0, 1)).1 = _
    split
    · next hz =>
      have h10 : n < 10 := by omega
      simp only [List.foldr_cons, decStepR]
      rw [show n % 10 = n from by omega, digitVal_digitChar h10]
      ring
    · next hz =>
      have hlt : n / 10 < f := by omega
      have := ih (n / 10) (Nat.digitChar (n % 10) :: l) hlt
      rw [this]
      simp only [List.foldr_cons, decStepR, digitVal_digitChar (Nat.mod_lt n (by omega))]
      have hn10 : 10 * (n / 10) + n % 10 = n := Nat.div_add_mod n 10
      ring_nf
      nlinarith [hn10]

theorem repr_decodeR (n : Nat) :
    (((Nat.repr n).data).foldr decStepR (0, 1)).1 = n := by
  show (((Nat.repr n).toList).foldr decStepR (0, 1)).1 = n
  show (((Nat.toDigits 10 n).asString).toList.foldr decStepR (0, 1)).1 = n
  rw [List.toList_asString]
  show ((Nat.toDigitsCore 10 (n + 1) n []).foldr decStepR (0, 1)).1 = n
  rw [toDigitsCore_decodeR (n + 1) n [] (by omega)]
  simp [decStepR]

theorem nat_repr_injective {m n : Nat} (h : Nat.repr m = Nat.repr n) : m = n := by
  have := congrArg (fun s : String => ((s.data).foldr decStepR (0, 1)).1) h
  simpa [repr_decodeR] using this

theorem compareTo_eq_zero_iff (a b : NodeHighLevelC) :
    a.compareTo b = 0 ↔ a.id = b.id := by
  unfold NodeHighLevelC.compareTo localeCompare NodeHighLevelC.getId
  rcases lt_trichotomy (Nat.repr a.id) (Nat.repr b.id) with hlt | heq | hgt
  · rw [if_pos hlt]
    constructor
    · intro hc; cases hc
    · intro hc
      rw [hc] at hlt
      exact absurd hlt (lt_irrefl _)
  · rw [if_neg (by rw [heq]; exact lt_irrefl _), if_neg (by rw [heq]; exact lt_irrefl _)]
    simp [nat_repr_injective heq]
  · rw [if_neg (not_lt_of_gt hgt), if_pos hgt]
    constructor
    · intro hc; cases hc
    · intro hc
      rw [hc] at hgt
      exact absurd hgt (lt_irrefl _)


/-- C10: every high-level search node takes its id from the incrementing
counter at construction; `compareTo` compares only the decimal id strings, so
two nodes compare equal exactly when their ids coincide, and two nodes with
distinct ids compare unequal even when they carry the same goal-tree cursor
and the same low-level snapshot — the outer search's discovered set therefore
never identifies two separately constructed nodes. -/
theorem C10_fresh_ids_tree_search :
    (∀ (c : Nat) (g : GAddr) (l : LowNode),
        (mkNodeHighLevel c g l).1.id = c ∧ (mkNodeHighLevel c g l).2 = c + 1)
    ∧ (∀ a b : NodeHighLevelC, a.compareTo b = 0 ↔ a.id = b.id)
    ∧ (∀ a b : NodeHighLevelC, a.goalNode = b.goalNode →
        a.nodeLowLevel = b.nodeLowLevel → a.id ≠ b.id → a.compareTo b ≠ 0) := by
  refine ⟨fun c g l => ⟨rfl, rfl⟩, compareTo_eq_zero_iff, ?_⟩
  intro a b _ _ hne hc
  exact hne ((compareTo_eq_zero_iff a b).mp hc)

/-- Closed instance of the C10 theorem. -/
theorem C10_fresh_ids_tree_search_witness :
    ((mkNodeHighLevel 0 GAddr.root (LowNode.fromWorld exWorld)).1.id = 0
      ∧ (mkNodeHighLevel 0 GAddr.root (LowNode.fromWorld exWorld)).2 = 0 + 1)
    ∧ (GAddr.root = GAddr.root)
    ∧ ((0 : Nat) ≠ 1)
    ∧ NodeHighLevelC.compareTo ⟨0, GAddr.root, LowNode.fromWorld exWorld⟩
        ⟨1, GAddr.root, LowNode.fromWorld exWorld⟩ ≠ 0 :=
  ⟨C10_fresh_ids_tree_search.1 0 GAddr.root (LowNode.fromWorld exWorld),
    rfl, by decide,
    C10_fresh_ids_tree_search.2.2
      ⟨0, GAddr.root, LowNode.fromWorld exWorld⟩
      ⟨1, GAddr.root, LowNode.fromWorld exWorld⟩ rfl rfl (by decide)⟩

end BoxMover
